import Mathlib

/-!
Verification of the core transformation engine of the emoji annotation tool
(`src/colorful_emoji_annotations/main.py`) against its natural-language
specification.

Modelling conventions (shallow embedding):
* Python strings are lists of characters (`Str := List Char`); string
  slicing `s[:p] + m + s[p:]` becomes `take`/`drop` on lists.
* Python `dict`s are association lists with the usual insert-or-overwrite
  update (`assocSet`), preserving insertion order like Python 3.7+ dicts.
* Python exceptions become `Except Err` results; the distinct `raise`
  sites of the source are mapped to distinct `Err` constructors.
* The external emoji alphabet (`emojis.txt`, outside the core) is a
  parameter `EMOJIS : List Str`; `is_emoji` is membership, as in
  `utils/emoji.py`.
* `re.finditer` / `re.sub` over the alternation pattern
  `"|".join(EMOJI_LABEL_MAPPING)` are modelled by a literal multi-pattern
  scanner: at each position the alternatives are tried in pattern order
  (Python alternation semantics), a match consumes its length, otherwise
  the scan advances one character.  The scanner is written with explicit
  fuel (one unit per position) so that it is structurally recursive; fuel
  `s.length` always suffices.
* `isinstance` checks of `_validate_emoji_mapping` are vacuous in the
  typed embedding and are therefore not represented.
-/

namespace EmojiTool

abbrev Str := List Char
abbrev Offs := Nat × Nat

/-- The distinct failure modes of the source (each a `raise` site). -/
inductive Err where
  /-- `_validate_emoji_mapping`: "emoji_mapping must have a single emoji as values." -/
  | validationError
  /-- `to_inline_annotations`: "Annotation dict includes concepts that are not part of the emoji mapping". -/
  | unknownKeysError
  /-- `from_inline_annotations`: "Missing annotation mapping." -/
  | missingMappingError
  /-- `from_inline_annotations`: "An annotation is not properly closed". -/
  | unbalancedError
  /-- `from_inline_annotations`: `KeyError` from `LABEL_EMOJI_MAPPING[label]`. -/
  | keyError
  /-- `to_inline_annotations`: `NameError` (`next_offset`/`next_tag` unbound when the
      endpoint-event list has fewer than two entries). -/
  | nameError
deriving DecidableEq, Repr

/-- Python `dict` lookup on an insertion-ordered association list. -/
def assocGet (m : List (Str × α)) (k : Str) : Option α :=
  (m.find? (fun p => decide (p.1 = k))).map (·.2)

/-- Python `dict` update `d[k] = v`: overwrite in place, or append a new entry. -/
def assocSet (m : List (Str × α)) (k : Str) (v : α) : List (Str × α) :=
  match m with
  | [] => [(k, v)]
  | p :: rest => if p.1 = k then (k, v) :: rest else p :: assocSet rest k v

/-- `{v: k for k, v in lm.items()}` — the inverse (emoji → label) view. -/
def invMap (lm : List (Str × Str)) : List (Str × Str) :=
  lm.foldl (fun acc p => assocSet acc p.2 p.1) []

/-- `is_emoji` of `utils/emoji.py`: membership in the external emoji alphabet. -/
def is_emoji (EMOJIS : List Str) (c : Str) : Bool := decide (c ∈ EMOJIS)

/-- `_validate_emoji_mapping`: every value must satisfy `is_emoji`
    (the `isinstance` checks are type-level here). -/
def _validate_emoji_mapping (EMOJIS : List Str) (m : List (Str × Str)) : Bool :=
  m.all (fun p => is_emoji EMOJIS p.2)

/-- The attributes an `EmojiAnnotator` instance carries (those used by the
    transformation core).  `EMOJI_LABEL_MAPPING` and `EMOJI_ANN_PATTERN` are
    computed in `__init__` and, importantly, only there. -/
structure EmojiAnnotator where
  LABEL_EMOJI_MAPPING : List (Str × Str)
  EMOJI_LABEL_MAPPING : List (Str × Str)
  EMOJI_ANN_PATTERN : List Str
deriving DecidableEq, Repr

/-- The attribute assignments of `__init__` (after validation succeeded). -/
def mkAnnotator (lm : List (Str × Str)) : EmojiAnnotator :=
  ⟨lm, invMap lm, (invMap lm).map (·.1)⟩

/-- `__init__` with an explicit emoji mapping: validate, then derive the views. -/
def annotatorInit (EMOJIS : List Str) (lm : List (Str × Str)) :
    Except Err EmojiAnnotator :=
  if _validate_emoji_mapping EMOJIS lm then .ok (mkAnnotator lm)
  else .error .validationError

/-- `__setitem__`: validate the single new entry, then update
    `LABEL_EMOJI_MAPPING` — and nothing else. -/
def __setitem__ (EMOJIS : List Str) (A : EmojiAnnotator) (k v : Str) :
    Except Err EmojiAnnotator :=
  if _validate_emoji_mapping EMOJIS [(k, v)] then
    .ok { A with LABEL_EMOJI_MAPPING := assocSet A.LABEL_EMOJI_MAPPING k v }
  else .error .validationError

/-! ## `to_inline_annotations` -/

/-- The key-resolution prelude of `to_inline_annotations`: if all keys are
    labels, translate them to emojis (a dict comprehension, hence the
    insert-or-overwrite fold); else if all keys are emojis keep them;
    else raise. -/
def resolveKeys (A : EmojiAnnotator) (anns : List (Str × List Offs)) :
    Except Err (List (Str × List Offs)) :=
  if anns.all (fun a => (assocGet A.LABEL_EMOJI_MAPPING a.1).isSome) then
    .ok (anns.foldl (fun acc a =>
      assocSet acc ((assocGet A.LABEL_EMOJI_MAPPING a.1).getD a.1) a.2) [])
  else if anns.all (fun a => (assocGet A.EMOJI_LABEL_MAPPING a.1).isSome) then
    .ok anns
  else .error .unknownKeysError

/-- `list(sum(ann, ()))`: flatten `[(s1,e1),(s2,e2),…]` to `[s1,e1,s2,e2,…]`. -/
def flattenOffs : List Offs → List Nat
  | [] => []
  | o :: rest => o.1 :: o.2 :: flattenOffs rest

/-- Build the flat endpoint-event list `ann_offsets_with_tags`. -/
def flattenAnn : List (Str × List Offs) → List (Nat × Str)
  | [] => []
  | a :: rest => (flattenOffs a.2).map (fun off => (off, a.1)) ++ flattenAnn rest

/-- One step of a stable insertion sort: place `x` before the first element
    it compares `le` to. -/
def insStep (le : α → α → Bool) (x : α) : List α → List α
  | [] => [x]
  | y :: ys => if le x y then x :: y :: ys else y :: insStep le x ys

/-- Stable sort (Python `sorted`): equal elements keep their input order. -/
def stableSort (le : α → α → Bool) (l : List α) : List α := l.foldr (insStep le) []

/-- Key for the first `sorted(…, key=lambda x: x[0])`. -/
def ascLe (x y : Nat × Str) : Bool := decide (x.1 ≤ y.1)

/-- `OrderedDict.fromkeys`: distinct tags in first-appearance order. -/
def dedupF (l : List Str) : List Str :=
  l.foldl (fun acc t => if t ∈ acc then acc else acc ++ [t]) []

/-- `tag_order.index(tag)`. -/
def tagIdx (ord : List Str) (t : Str) : Nat := ord.findIdx (fun u => u == t)

/-- Key for `sorted(…, key=lambda x: (x[0], tag_order.index(x[1])), reverse=True)`:
    `x` may precede `y` iff `y`'s key is lexicographically ≤ `x`'s. -/
def descLe (ord : List Str) (x y : Nat × Str) : Bool :=
  decide (y.1 < x.1) ||
    (decide (y.1 = x.1) && decide (tagIdx ord y.2 ≤ tagIdx ord x.2))

/-- `text_ann[:offset] + tag + text_ann[offset:]`. -/
def insertAt (t : Str) (p : Nat) (m : Str) : Str := t.take p ++ m ++ t.drop p

/-- The insertion loop of `to_inline_annotations` over consecutive pairs of
    the descending event list, including the coincident-offset switch and the
    final insertion after the loop.  `last` is `(last_offset, last_tag)`,
    `sw` is `switched_tag_pos`. -/
def loopIns : Str → Option (Nat × Str) → Bool → List (Nat × Str) → Str
  | t, _, _, [] => t
  | t, last, sw, [x] =>
    -- after the loop: `if switched_tag_pos: next_offset, next_tag = ann[-2]`;
    -- at that point `ann[-2]` is exactly the `last` of the final iteration
    if sw then
      match last with
      | some l => insertAt t l.1 l.2
      | none => insertAt t x.1 x.2
    else insertAt t x.1 x.2
  | t, last, sw, c :: n :: rest =>
    if sw then
      -- use the saved tag and offset; the current pair was already consumed
      (match last with
       | some l => loopIns (insertAt t l.1 l.2) (some c) false (n :: rest)
       | none => loopIns t (some c) false (n :: rest))
    else if decide (c.1 = n.1) &&
        (match last with | some l => decide (l.2 = n.2) | none => false) then
      -- two tags share an offset: emit the closing tag first
      loopIns (insertAt t n.1 n.2) (some c) true (n :: rest)
    else
      loopIns (insertAt t c.1 c.2) (some c) false (n :: rest)

/-- `to_inline_annotations`. -/
def to_inline_annotations (A : EmojiAnnotator) (text : Str)
    (anns : List (Str × List Offs)) : Except Err Str := do
  let anns ← resolveKeys A anns
  let evs := flattenAnn anns
  let asc := stableSort ascLe evs
  let ord := dedupF (asc.map (·.2))
  let desc := stableSort (descLe ord) asc
  match desc with
  | [] => .error .nameError
  | [_] => .error .nameError
  | l => .ok (loopIns text none false l)

/-! ## `from_inline_annotations` -/

/-- Try the alternatives of the pattern in order at the current position
    (Python regex alternation). -/
def matchHere (pats : List Str) (s : Str) : Option Str :=
  pats.find? (fun p => !p.isEmpty && p.isPrefixOf s)

/-- `finditer` over the alternation pattern, already producing the
    *adjusted* position `match.start() - offset` (the number of plain
    characters scanned so far, `n`).  Fuel-structural; fuel `s.length`
    suffices since every step consumes at least one character. -/
def scanAux (pats : List Str) : Nat → Str → Nat → List (Str × Nat)
  | _, [], _ => []
  | 0, _ :: _, _ => []
  | fuel + 1, c :: cs, n =>
    match matchHere pats (c :: cs) with
    | some p => (p, n) :: scanAux pats fuel ((c :: cs).drop p.length) n
    | none => scanAux pats fuel cs (n + 1)

/-- The `(symbol, adjusted position)` list produced by the scanning loop of
    `from_inline_annotations`. -/
def finditer (A : EmojiAnnotator) (s : Str) : List (Str × Nat) :=
  scanAux A.EMOJI_ANN_PATTERN s.length s 0

/-- `EMOJI_ANN_PATTERN.sub("", s)`: delete every match. -/
def stripAux (pats : List Str) : Nat → Str → Str
  | _, [] => []
  | 0, s => s
  | fuel + 1, c :: cs =>
    match matchHere pats (c :: cs) with
    | some p => stripAux pats fuel ((c :: cs).drop p.length)
    | none => c :: stripAux pats fuel cs

/-- The marker-stripping step of `from_inline_annotations`
    (`plain_text = self.EMOJI_ANN_PATTERN.sub("", annotated_text)`). -/
def subMarkers (A : EmojiAnnotator) (s : Str) : Str :=
  stripAux A.EMOJI_ANN_PATTERN s.length s

/-- `defaultdict(list)` append `d[k].append(v)` on an association list. -/
def appendVal (acc : List (Str × List α)) (k : Str) (v : α) : List (Str × List α) :=
  match acc with
  | [] => [(k, [v])]
  | e :: rest => if e.1 = k then (e.1, e.2 ++ [v]) :: rest else e :: appendVal rest k v

/-- The grouping loop: map each matched symbol to its label
    (raising if absent) and accumulate its adjusted position. -/
def groupFlat (em : List (Str × Str)) :
    List (Str × Nat) → List (Str × List Nat) → Except Err (List (Str × List Nat))
  | [], acc => .ok acc
  | (m, p) :: rest, acc =>
    match assocGet em m with
    | none => .error .missingMappingError
    | some tag => groupFlat em rest (appendVal acc tag p)

/-- `for i in range(0, len(pos), 2): … (pos[i], pos[i+1])`. -/
def pairUp : List Nat → List Offs
  | p :: q :: rest => (p, q) :: pairUp rest
  | _ => []

/-- Append a list of offset pairs for one key into the output `defaultdict`. -/
def addPairs (acc : List (Str × List Offs)) (k : Str) (ps : List Offs) :
    List (Str × List Offs) :=
  ps.foldl (fun acc pr => appendVal acc k pr) acc

/-- The second loop of `from_inline_annotations`: check balance per label,
    choose the output key, and pair up the positions. -/
def buildAnns (A : EmojiAnnotator) (ek : Bool) :
    List (Str × List Nat) → List (Str × List Offs) →
      Except Err (List (Str × List Offs))
  | [], acc => .ok acc
  | (label, pos) :: rest, acc =>
    if pos.length % 2 ≠ 0 then .error .unbalancedError
    else
      match (if ek then assocGet A.LABEL_EMOJI_MAPPING label else some label) with
      | none => .error .keyError
      | some key => buildAnns A ek rest (addPairs acc key (pairUp pos))

/-- `from_inline_annotations`. -/
def from_inline_annotations (A : EmojiAnnotator) (s : Str) (ek : Bool) :
    Except Err (Str × List (Str × List Offs)) := do
  let flat ← groupFlat A.EMOJI_LABEL_MAPPING (finditer A s) []
  let anns ← buildAnns A ek flat []
  .ok (subMarkers A s, anns)

/-- `from_inline_annotations ∘ to_inline_annotations` (label keys). -/
def roundTrip (A : EmojiAnnotator) (t : Str) (anns : List (Str × List Offs)) :
    Except Err (Str × List (Str × List Offs)) :=
  (to_inline_annotations A t anns).bind (fun s => from_inline_annotations A s false)

/-- Number of (possibly overlapping) occurrences of `m` as a substring:
    positions at which `m` is a prefix of the rest. -/
def occCount (m : Str) : Str → Nat
  | [] => 0
  | c :: cs => (if m.isPrefixOf (c :: cs) then 1 else 0) + occCount m cs

/-- Well-formed span list for one label: each span has `start < end`,
    consecutive spans do not overlap and come in ascending order. -/
def wfSpans : List Offs → Bool
  | [] => true
  | [(s, e)] => decide (s < e)
  | (s, e) :: (s', e') :: r =>
    decide (s < e) && decide (e ≤ s') && wfSpans ((s', e') :: r)

/-! ## Helper notions used by the proofs -/

/-- The order in which `loopIns` performs its insertions (the events of the
    descending list, with coincident-offset neighbours swapped by the
    switch). -/
def insSeq : Option (Nat × Str) → Bool → List (Nat × Str) → List (Nat × Str)
  | _, _, [] => []
  | last, sw, [x] =>
    if sw then
      match last with
      | some l => [l]
      | none => [x]
    else [x]
  | last, sw, c :: n :: rest =>
    if sw then
      (match last with
       | some l => l :: insSeq (some c) false (n :: rest)
       | none => insSeq (some c) false (n :: rest))
    else if decide (c.1 = n.1) &&
        (match last with | some l => decide (l.2 = n.2) | none => false) then
      n :: insSeq (some c) true (n :: rest)
    else
      c :: insSeq (some c) false (n :: rest)

/-- Perform a list of insertions in order. -/
def applyIns (t : Str) (seq : List (Nat × Str)) : Str :=
  seq.foldl (fun t e => insertAt t e.1 e.2) t

/-- Canonical form of a text after a non-increasing sequence of insertions:
    the first (rightmost) insertion splits the text, the rest fall in the
    prefix. -/
def weaveW : Str → List (Nat × Str) → Str
  | t, [] => t
  | t, (o, m) :: rest => weaveW (t.take o) rest ++ m ++ t.drop o

/-- The scanner specialised to single-character patterns. -/
def simpleScan (pats : List Str) : Str → Nat → List (Str × Nat)
  | [], _ => []
  | c :: cs, n =>
    match pats.find? (fun p => p == [c]) with
    | some p => (p, n) :: simpleScan pats cs n
    | none => simpleScan pats cs (n + 1)

/-- The stripper specialised to single-character patterns. -/
def simpleStrip (pats : List Str) (s : Str) : Str :=
  s.filter (fun c => (pats.find? (fun p => p == [c])).isNone)

/-- Offsets of an event list are non-increasing. -/
def NonIncr (l : List (Nat × Str)) : Prop :=
  l.Pairwise (fun x y => y.1 ≤ x.1)

/-- `m` occurs as a (contiguous) substring of `s`.  The empty string occurs
    in every string. -/
def occursIn (m : Str) : Str → Bool
  | [] => m.isPrefixOf []
  | c :: cs => m.isPrefixOf (c :: cs) || occursIn m cs

/-- Fold a list of `(key, value)` pairs into a `defaultdict`-style
    association list by appending each value to its key's list. -/
def foldAdd (M : List (Str × β)) (acc : List (Str × List β)) : List (Str × List β) :=
  M.foldl (fun acc x => appendVal acc x.1 x.2) acc

/-- The values carried by key `k` in a flat `(key, value)` list, in order. -/
def selVals (k : Str) (M : List (Str × β)) : List β :=
  (M.filter (fun x => decide (x.1 = k))).map (·.2)

/-- Spread the paired-up offsets of each label back into a flat keyed list
    (the order in which `buildAnns` appends them). -/
def spreadPairs : List (Str × List Nat) → List (Str × Offs)
  | [] => []
  | e :: rest => (pairUp e.2).map (fun pr => (e.1, pr)) ++ spreadPairs rest

end EmojiTool

namespace EmojiTool

/-- Decidable equality for `Except` results, used to settle concrete runs. -/
def exceptDecEq [DecidableEq ε] [DecidableEq α] : DecidableEq (Except ε α)
  | .ok a, .ok b =>
    if h : a = b then isTrue (by rw [h])
    else isFalse (by intro hh; cases hh; exact h rfl)
  | .ok _, .error _ => isFalse (by intro h; cases h)
  | .error _, .ok _ => isFalse (by intro h; cases h)
  | .error e, .error f =>
    if h : e = f then isTrue (by rw [h])
    else isFalse (by intro hh; cases hh; exact h rfl)

instance [DecidableEq ε] [DecidableEq α] : DecidableEq (Except ε α) := exceptDecEq

/-! ## Association-list lemmas -/

theorem assocSet_cons (p : Str × α) (m : List (Str × α)) (k : Str) (v : α) :
    assocSet (p :: m) k v = if p.1 = k then (k, v) :: m else p :: assocSet m k v := rfl

theorem mem_assocSet_self (m : List (Str × α)) (k : Str) (v : α) :
    (k, v) ∈ assocSet m k v := by
  induction m with
  | nil => simp [assocSet]
  | cons p rest ih =>
    rw [assocSet_cons]
    by_cases h : p.1 = k
    · simp [h]
    · simp only [h, if_false]
      exact List.mem_cons_of_mem _ ih

theorem mem_assocSet_of_ne {m : List (Str × α)} {k' : Str} {v' : α}
    (hm : (k', v') ∈ m) (k : Str) (v : α) (hne : k' ≠ k) :
    (k', v') ∈ assocSet m k v := by
  induction m with
  | nil => cases hm
  | cons p rest ih =>
    rw [List.mem_cons] at hm
    rcases hm with h | h
    · subst h
      rw [assocSet_cons, if_neg hne]
      exact List.mem_cons_self _ _
    · rw [assocSet_cons]
      by_cases hp : p.1 = k
      · rw [if_pos hp]
        exact List.mem_cons_of_mem _ h
      · rw [if_neg hp]
        exact List.mem_cons_of_mem _ (ih h)

theorem assocGet_cons (p : Str × α) (m : List (Str × α)) (k : Str) :
    assocGet (p :: m) k = if p.1 = k then some p.2 else assocGet m k := by
  by_cases h : p.1 = k <;> simp [assocGet, List.find?, h]

@[simp] theorem assocGet_nil (k : Str) : assocGet ([] : List (Str × α)) k = none := rfl

theorem assocGet_mem {m : List (Str × α)} {k : Str} {v : α}
    (h : assocGet m k = some v) : (k, v) ∈ m := by
  induction m with
  | nil => simp [assocGet] at h
  | cons p rest ih =>
    rw [assocGet_cons] at h
    rw [List.mem_cons]
    by_cases hp : p.1 = k
    · rw [if_pos hp, Option.some_inj] at h
      left
      calc (k, v) = (p.1, p.2) := by rw [hp, h]
        _ = p := rfl
    · rw [if_neg hp] at h
      exact Or.inr (ih h)

theorem assocGet_isSome_of_mem {m : List (Str × α)} {k : Str} {v : α}
    (h : (k, v) ∈ m) : (assocGet m k).isSome := by
  induction m with
  | nil => cases h
  | cons p rest ih =>
    rw [assocGet_cons]
    by_cases hp : p.1 = k
    · simp [hp]
    · rw [List.mem_cons] at h
      rcases h with h | h
      · exact absurd (congrArg Prod.fst h.symm) hp
      · simp [hp, ih h]

theorem assocGet_eq_none_iff (m : List (Str × α)) (k : Str) :
    assocGet m k = none ↔ k ∉ m.map (·.1) := by
  induction m with
  | nil => simp
  | cons p rest ih =>
    rw [assocGet_cons, List.map_cons]
    by_cases hp : p.1 = k
    · rw [if_pos hp]
      constructor
      · intro h
        exact absurd h (Option.some_ne_none _)
      · intro hh
        exact ((hh (List.mem_cons.mpr (Or.inl hp.symm))).elim)
    · rw [if_neg hp, ih, List.mem_cons]
      constructor
      · intro hk hor
        rcases hor with h1 | h2
        · exact hp h1.symm
        · exact hk h2
      · intro hh h2
        exact hh (Or.inr h2)

theorem assocGet_eq_some_of_mem_nodup {m : List (Str × α)} {k : Str} {v : α}
    (hn : (m.map (·.1)).Nodup) (h : (k, v) ∈ m) : assocGet m k = some v := by
  induction m with
  | nil => cases h
  | cons p rest ih =>
    rw [assocGet_cons]
    rw [List.map_cons, List.nodup_cons] at hn
    rw [List.mem_cons] at h
    rcases h with h | h
    · rw [← h]; simp
    · have hp : p.1 ≠ k := by
        intro hk
        exact hn.1 (hk ▸ List.mem_map.mpr ⟨(k, v), h, rfl⟩)
      simp only [hp, if_neg, if_false]
      exact ih hn.2 h

/-- Updating a fresh key appends the entry. -/
theorem assocSet_fresh {m : List (Str × α)} {k : Str}
    (h : k ∉ m.map (·.1)) (v : α) : assocSet m k v = m ++ [(k, v)] := by
  induction m with
  | nil => rfl
  | cons p rest ih =>
    simp only [List.map_cons, List.mem_cons] at h
    push_neg at h
    have hp : ¬ p.1 = k := fun hh => h.1 hh.symm
    simp [assocSet, hp, ih h.2]

/-! ## Claims about the mapping operations (C3, C4, C6) -/

/-- C3, counterexample: `__setitem__` called with a marker (`"X"`) that is
    already mapped from a different label (`"a"`) does *not* fail with a
    `ValidationError`; it succeeds and inserts the conflicting entry, so both
    labels end up mapped to the same marker. -/
theorem c3_conflicting_set_succeeds_cex :
    __setitem__ [['X']] (mkAnnotator [(['a'], ['X'])]) ['b'] ['X'] =
      .ok ⟨[(['a'], ['X']), (['b'], ['X'])], [(['X'], ['a'])], [['X']]⟩ := by
  decide

/-- C3 (amended): `__setitem__` validates only that the new value is in the
    marker alphabet; a `set` whose marker is already used by a *different*
    label succeeds and inserts the entry, after which two distinct labels map
    to the same marker — injectivity is not enforced. -/
theorem c3_set_ignores_marker_conflicts (EMOJIS : List Str) (A : EmojiAnnotator)
    (k k' v : Str) (hmem : is_emoji EMOJIS v = true)
    (hconf : (k', v) ∈ A.LABEL_EMOJI_MAPPING) (hne : k' ≠ k) :
    ∃ A', __setitem__ EMOJIS A k v = .ok A' ∧
      (k, v) ∈ A'.LABEL_EMOJI_MAPPING ∧ (k', v) ∈ A'.LABEL_EMOJI_MAPPING := by
  have hv : _validate_emoji_mapping EMOJIS [(k, v)] = true := by
    simp [_validate_emoji_mapping, hmem]
  have hset : __setitem__ EMOJIS A k v =
      .ok ⟨assocSet A.LABEL_EMOJI_MAPPING k v, A.EMOJI_LABEL_MAPPING,
        A.EMOJI_ANN_PATTERN⟩ := by
    simp [__setitem__, hv]
  exact ⟨_, hset, mem_assocSet_self _ _ _, mem_assocSet_of_ne hconf _ _ hne⟩

/-- Witness for C3 (amended): a concrete conflicting `set` that succeeds. -/
theorem c3_set_ignores_marker_conflicts_witness :
    ∃ A', __setitem__ [['X']] (mkAnnotator [(['a'], ['X'])]) ['b'] ['X'] = .ok A' ∧
      (['b'], ['X']) ∈ A'.LABEL_EMOJI_MAPPING ∧
      (['a'], ['X']) ∈ A'.LABEL_EMOJI_MAPPING :=
  c3_set_ignores_marker_conflicts [['X']] (mkAnnotator [(['a'], ['X'])])
    ['b'] ['a'] ['X'] (by decide) (by decide) (by decide)

/-- C4, counterexample: after a successful `set` of a new label `"b"` with a
    fresh marker `"Y"`, the inverse view still lacks `"Y"` — looking the new
    marker up in `EMOJI_LABEL_MAPPING` yields nothing, so the two views are
    not synchronized. -/
theorem c4_views_not_synchronized_cex :
    __setitem__ [['X'], ['Y']] (mkAnnotator [(['a'], ['X'])]) ['b'] ['Y'] =
      .ok ⟨[(['a'], ['X']), (['b'], ['Y'])], [(['X'], ['a'])], [['X']]⟩ ∧
    assocGet [(['X'], ['a'])] ['Y'] = none := by
  constructor
  · decide
  · decide

/-- C4 (amended): a successful `__setitem__` updates only the
    `LABEL_EMOJI_MAPPING` view; the inverse `EMOJI_LABEL_MAPPING` view and
    the scan pattern remain exactly those computed at construction, so they
    are not re-derived on mutation. -/
theorem c4_set_updates_only_forward_view (EMOJIS : List Str) (A : EmojiAnnotator)
    (k v : Str) (h : _validate_emoji_mapping EMOJIS [(k, v)] = true) :
    __setitem__ EMOJIS A k v =
      .ok ⟨assocSet A.LABEL_EMOJI_MAPPING k v, A.EMOJI_LABEL_MAPPING,
        A.EMOJI_ANN_PATTERN⟩ := by
  simp [__setitem__, h]

/-- Witness for C4 (amended) at a concrete mapping and entry. -/
theorem c4_set_updates_only_forward_view_witness :
    __setitem__ [['X'], ['Y']] (mkAnnotator [(['a'], ['X'])]) ['b'] ['Y'] =
      .ok ⟨assocSet (mkAnnotator [(['a'], ['X'])]).LABEL_EMOJI_MAPPING ['b'] ['Y'],
        (mkAnnotator [(['a'], ['X'])]).EMOJI_LABEL_MAPPING,
        (mkAnnotator [(['a'], ['X'])]).EMOJI_ANN_PATTERN⟩ :=
  c4_set_updates_only_forward_view [['X'], ['Y']] (mkAnnotator [(['a'], ['X'])])
    ['b'] ['Y'] (by decide)

/-- C6: `__setitem__` with a value that is not a member of the marker
    alphabet (`is_emoji` false) fails with a `ValidationError`, and hence no
    entry is inserted. -/
theorem c6_set_rejects_non_emoji (EMOJIS : List Str) (A : EmojiAnnotator)
    (k s : Str) (h : is_emoji EMOJIS s = false) :
    __setitem__ EMOJIS A k s = .error .validationError := by
  have hv : _validate_emoji_mapping EMOJIS [(k, s)] = false := by
    simp [_validate_emoji_mapping, h]
  simp [__setitem__, hv]

/-- Witness for C6: setting a non-emoji value fails on a concrete mapping. -/
theorem c6_set_rejects_non_emoji_witness :
    is_emoji [['X']] ['q'] = false ∧
      __setitem__ [['X']] (mkAnnotator [(['a'], ['X'])]) ['b'] ['q'] =
        .error .validationError :=
  ⟨by decide, c6_set_rejects_non_emoji [['X']] (mkAnnotator [(['a'], ['X'])])
    ['b'] ['q'] (by decide)⟩

/-! ## Claims about `to_inline_annotations` (C2, C8, C9) -/

/-- C2, counterexample: an annotations input that *does* contain two spans of
    different labels with a shared end/start offset (label `"A"` ends at 2
    where label `"C"` starts), yet whose produced marked string depends on
    the iteration order of the input keys: swapping the first two keys
    (`"A"`, `"B"`, two identical spans `(0,2)`) changes the output. -/
theorem c2_key_order_dependence_cex :
    to_inline_annotations (mkAnnotator [(['A'], ['a']), (['B'], ['b']), (['C'], ['c'])])
      "wxyz".toList
      [(['A'], [(0, 2)]), (['B'], [(0, 2)]), (['C'], [(2, 4)])] ≠
    to_inline_annotations (mkAnnotator [(['A'], ['a']), (['B'], ['b']), (['C'], ['c'])])
      "wxyz".toList
      [(['B'], [(0, 2)]), (['A'], [(0, 2)]), (['C'], [(2, 4)])] := by
  decide

/-- C8: when the key set of the annotations dictionary is neither entirely
    labels nor entirely markers of the mapping, `to_inline_annotations`
    fails with the unknown-keys `ValueError` — keys are never resolved
    one by one. -/
theorem c8_mixed_keys_rejected (A : EmojiAnnotator) (t : Str)
    (anns : List (Str × List Offs))
    (h1 : anns.all (fun a => (assocGet A.LABEL_EMOJI_MAPPING a.1).isSome) = false)
    (h2 : anns.all (fun a => (assocGet A.EMOJI_LABEL_MAPPING a.1).isSome) = false) :
    to_inline_annotations A t anns = .error .unknownKeysError := by
  rw [to_inline_annotations]
  have : resolveKeys A anns = .error .unknownKeysError := by
    rw [resolveKeys, h1, h2]
    rfl
  rw [this]
  rfl

/-- Witness for C8: a mixed key set — `"a"` is a label of the mapping and
    `"Y"` is a marker of the mapping, so each key is individually
    resolvable, yet the call fails. -/
theorem c8_mixed_keys_rejected_witness :
    to_inline_annotations (mkAnnotator [(['a'], ['X']), (['b'], ['Y'])])
      "hello".toList [(['a'], [(0, 2)]), (['Y'], [(2, 4)])] =
      .error .unknownKeysError :=
  c8_mixed_keys_rejected (mkAnnotator [(['a'], ['X']), (['b'], ['Y'])])
    "hello".toList [(['a'], [(0, 2)]), (['Y'], [(2, 4)])] (by decide) (by decide)

/-- C9: called with an empty annotations mapping (hence zero endpoint
    events), `to_inline_annotations` does not return the text unchanged: it
    fails (the source dies with an unbound `next_offset`/`next_tag`
    `NameError` because the insertion loop never ran). -/
theorem c9_empty_annotations_error (A : EmojiAnnotator) (t : Str) :
    to_inline_annotations A t [] = .error .nameError := rfl

/-! ## Scanner lemmas for single-character patterns -/

theorem findCongr {p q : α → Bool} {l : List α} (h : ∀ a ∈ l, p a = q a) :
    l.find? p = l.find? q := by
  induction l with
  | nil => rfl
  | cons x xs ih =>
    rw [List.find?, List.find?, h x (List.mem_cons_self _ _),
      ih (fun a ha => h a (List.mem_cons_of_mem _ ha))]

theorem singleton_isPrefixOf (d c : Char) (cs : Str) :
    ([d] : Str).isPrefixOf (c :: cs) = (d == c) := by
  simp [List.isPrefixOf]

theorem singleton_beq_singleton (d c : Char) :
    (([d] : Str) == [c]) = (d == c) := by
  by_cases h : d = c
  · subst h
    simp
  · have h1 : (d == c) = false := beq_eq_false_iff_ne.mpr h
    have h2 : (([d] : Str) == [c]) = false := by
      apply beq_eq_false_iff_ne.mpr
      intro hh
      exact h (by injection hh)
    rw [h1, h2]

/-- With single-character patterns, a position matches exactly when some
    pattern equals the singleton of the current character. -/
theorem matchHere_singleton {pats : List Str}
    (hp : ∀ p ∈ pats, p.length = 1) (c : Char) (cs : Str) :
    matchHere pats (c :: cs) = pats.find? (fun p => p == [c]) := by
  apply findCongr
  intro p hmem
  rcases List.length_eq_one.mp (hp p hmem) with ⟨d, rfl⟩
  rw [singleton_isPrefixOf, singleton_beq_singleton]
  simp

/-- With single-character patterns the fueled stripper is the filter that
    removes marker characters, provided the fuel covers the string. -/
theorem stripAux_singleton {pats : List Str}
    (hp : ∀ p ∈ pats, p.length = 1) :
    ∀ (s : Str) (fuel : Nat), s.length ≤ fuel →
      stripAux pats fuel s = simpleStrip pats s := by
  intro s
  induction s with
  | nil => intro fuel _; cases fuel <;> rfl
  | cons c cs ih =>
    intro fuel hf
    match fuel, hf with
    | fuel + 1, hf =>
      rw [stripAux, matchHere_singleton hp]
      cases hfind : pats.find? (fun p => p == [c]) with
      | none =>
        show c :: stripAux pats fuel cs = simpleStrip pats (c :: cs)
        rw [ih fuel (Nat.le_of_succ_le_succ hf), simpleStrip, simpleStrip,
          List.filter_cons, hfind]
        rfl
      | some p =>
        have hbeq := List.find?_some hfind
        have hplen : p = [c] := eq_of_beq hbeq
        rw [hplen]
        show stripAux pats fuel ((c :: cs).drop ([c] : Str).length) =
          simpleStrip pats (c :: cs)
        have hdrop : ((c :: cs).drop ([c] : Str).length) = cs := rfl
        rw [hdrop, ih fuel (Nat.le_of_succ_le_succ hf), simpleStrip, simpleStrip,
          List.filter_cons, hfind]
        rfl

theorem mem_keys_assocSet {m : List (Str × α)} {k x : Str} {v : α}
    (h : x ∈ (assocSet m k v).map (·.1)) : x = k ∨ x ∈ m.map (·.1) := by
  induction m with
  | nil => simpa [assocSet] using h
  | cons p rest ih =>
    rw [assocSet_cons] at h
    by_cases hp : p.1 = k
    · rw [if_pos hp, List.map_cons, List.mem_cons] at h
      rcases h with h | h
      · exact Or.inl h
      · exact Or.inr (by rw [List.map_cons, List.mem_cons]; exact Or.inr h)
    · rw [if_neg hp, List.map_cons, List.mem_cons] at h
      rcases h with h | h
      · exact Or.inr (by rw [List.map_cons, List.mem_cons]; exact Or.inl h)
      · rcases ih h with h1 | h2
        · exact Or.inl h1
        · exact Or.inr (by rw [List.map_cons, List.mem_cons]; exact Or.inr h2)

/-- Every key of the inverse view is a marker of the forward view. -/
theorem invMap_keys_sub {lm : List (Str × Str)} :
    ∀ x ∈ (invMap lm).map (·.1), x ∈ lm.map (·.2) := by
  suffices h : ∀ (l acc : List (Str × Str)),
      ∀ x ∈ ((l.foldl (fun acc p => assocSet acc p.2 p.1) acc).map (·.1)),
        x ∈ acc.map (·.1) ∨ x ∈ l.map (·.2) by
    intro x hx
    rcases h lm [] x hx with h1 | h2
    · simp at h1
    · exact h2
  intro l
  induction l with
  | nil => intro acc x hx; exact Or.inl hx
  | cons p rest ih =>
    intro acc x hx
    rw [List.foldl_cons] at hx
    rcases ih (assocSet acc p.2 p.1) x hx with h1 | h2
    · rcases mem_keys_assocSet h1 with h3 | h4
      · exact Or.inr (by rw [List.map_cons, List.mem_cons]; exact Or.inl h3)
      · exact Or.inl h4
    · exact Or.inr (by rw [List.map_cons, List.mem_cons]; exact Or.inr h2)

/-! ## Claims about marker stripping (C7) -/

/-- C7, counterexample: with the (alphabet-valid) two-character marker
    `"ab"` for label `"l"`, stripping `"aabb"` once leaves `"ab"` (removing
    the inner occurrence creates a new one), and stripping twice leaves
    `""` — the marker-stripping step is not idempotent in general. -/
theorem c7_strip_not_idempotent_cex :
    subMarkers (mkAnnotator [(['l'], ['a', 'b'])]) "aabb".toList = "ab".toList ∧
    subMarkers (mkAnnotator [(['l'], ['a', 'b'])])
      (subMarkers (mkAnnotator [(['l'], ['a', 'b'])]) "aabb".toList) = [] := by
  constructor
  · decide
  · decide

/-- C7 (amended): when every marker of the mapping is a single character —
    the data model's "one symbol per marker" reading — the marker-stripping
    step of `from_inline_annotations` is idempotent. -/
theorem c7_strip_idempotent_single_char (lm : List (Str × Str)) (s : Str)
    (h : ∀ p ∈ lm, p.2.length = 1) :
    subMarkers (mkAnnotator lm) (subMarkers (mkAnnotator lm) s) =
      subMarkers (mkAnnotator lm) s := by
  have hp : ∀ p ∈ (invMap lm).map (·.1), p.length = 1 := by
    intro p hmem
    rcases List.mem_map.mp (invMap_keys_sub p hmem) with ⟨q, hq, rfl⟩
    exact h q hq
  have hstrip : ∀ t : Str,
      subMarkers (mkAnnotator lm) t = simpleStrip ((invMap lm).map (·.1)) t :=
    fun t => stripAux_singleton hp t t.length (Nat.le_refl _)
  rw [hstrip, hstrip, simpleStrip, simpleStrip, List.filter_filter]
  apply List.filter_congr
  intro a _
  exact Bool.and_self _

/-- Witness for C7 (amended): a concrete single-character-marker mapping. -/
theorem c7_strip_idempotent_single_char_witness :
    (∀ p ∈ [(['l'], ['x'])], (Prod.snd p).length = 1) ∧
      subMarkers (mkAnnotator [(['l'], ['x'])])
        (subMarkers (mkAnnotator [(['l'], ['x'])]) "axbxc".toList) =
      subMarkers (mkAnnotator [(['l'], ['x'])]) "axbxc".toList :=
  ⟨by decide, c7_strip_idempotent_single_char [(['l'], ['x'])] "axbxc".toList
    (by decide)⟩

/-! ## Round trip (C1) -/

/-- C1, counterexample: a well-formed input in the claim's sense (the single
    label is mapped, each span has `start < end`, the spans do not overlap,
    and the marker occurs nowhere in the text) whose within-label list is
    given in non-ascending order: the round trip returns the *sorted* list
    `[(0,1),(4,5)]`, not the original `[(4,5),(0,1)]` — within-label order
    is not preserved. -/
theorem c1_round_trip_cex :
    roundTrip (mkAnnotator [(['a'], ['X'])]) "abcdef".toList
        [(['a'], [(4, 5), (0, 1)])] =
      .ok ("abcdef".toList, [(['a'], [(0, 1), (4, 5)])]) ∧
    assocGet [(['a'], [((0 : Nat), (1 : Nat)), (4, 5)])] ['a'] ≠
      assocGet [(['a'], [((4 : Nat), (5 : Nat)), (0, 1)])] ['a'] := by
  constructor
  · decide
  · decide

/-! ## More scanner lemmas -/

theorem simpleScan_cons (pats : List Str) (c : Char) (cs : Str) (n : Nat) :
    simpleScan pats (c :: cs) n =
      match pats.find? (fun p => p == [c]) with
      | some p => (p, n) :: simpleScan pats cs n
      | none => simpleScan pats cs (n + 1) := rfl

theorem scanAux_cons (pats : List Str) (fuel : Nat) (c : Char) (cs : Str) (n : Nat) :
    scanAux pats (fuel + 1) (c :: cs) n =
      match matchHere pats (c :: cs) with
      | some p => (p, n) :: scanAux pats fuel ((c :: cs).drop p.length) n
      | none => scanAux pats fuel cs (n + 1) := rfl

/-- With single-character patterns the fueled scanner is `simpleScan`,
    provided the fuel covers the string. -/
theorem scanAux_singleton {pats : List Str}
    (hp : ∀ p ∈ pats, p.length = 1) :
    ∀ (s : Str) (fuel n : Nat), s.length ≤ fuel →
      scanAux pats fuel s n = simpleScan pats s n := by
  intro s
  induction s with
  | nil => intro fuel n _; cases fuel <;> rfl
  | cons c cs ih =>
    intro fuel n hf
    match fuel, hf with
    | fuel + 1, hf =>
      rw [scanAux_cons, matchHere_singleton hp, simpleScan_cons]
      cases hfind : pats.find? (fun p => p == [c]) with
      | none =>
        exact ih fuel (n + 1) (Nat.le_of_succ_le_succ hf)
      | some p =>
        have hbeq := List.find?_some hfind
        have hplen : p = [c] := eq_of_beq hbeq
        subst hplen
        show ([c], n) :: scanAux pats fuel ((c :: cs).drop ([c] : Str).length) n =
          ([c], n) :: simpleScan pats cs n
        have hdrop : ((c :: cs).drop ([c] : Str).length) = cs := rfl
        rw [hdrop, ih fuel n (Nat.le_of_succ_le_succ hf)]

/-- A string in which no pattern occurs scans to no matches at all. -/
theorem scanAux_no_occurrence {pats : List Str} :
    ∀ (s : Str) (fuel n : Nat), (∀ p ∈ pats, occursIn p s = false) →
      scanAux pats fuel s n = [] := by
  intro s
  induction s with
  | nil => intro fuel n _; cases fuel <;> rfl
  | cons c cs ih =>
    intro fuel n h
    cases fuel with
    | zero => rfl
    | succ fuel =>
      have hnone : matchHere pats (c :: cs) = none := by
        rw [matchHere, List.find?_eq_none]
        intro p hmem
        have hocc := h p hmem
        rw [occursIn, Bool.or_eq_false_iff] at hocc
        rw [hocc.1]
        simp
      rw [scanAux_cons, hnone]
      exact ih fuel (n + 1) (fun p hmem => by
        have hocc := h p hmem
        rw [occursIn, Bool.or_eq_false_iff] at hocc
        exact hocc.2)

/-- A string in which no pattern occurs is stripped to itself. -/
theorem stripAux_no_occurrence {pats : List Str} :
    ∀ (s : Str) (fuel : Nat), (∀ p ∈ pats, occursIn p s = false) →
      stripAux pats fuel s = s := by
  intro s
  induction s with
  | nil => intro fuel _; cases fuel <;> rfl
  | cons c cs ih =>
    intro fuel h
    cases fuel with
    | zero => rfl
    | succ fuel =>
      have hnone : matchHere pats (c :: cs) = none := by
        rw [matchHere, List.find?_eq_none]
        intro p hmem
        have hocc := h p hmem
        rw [occursIn, Bool.or_eq_false_iff] at hocc
        rw [hocc.1]
        simp
      rw [stripAux, hnone]
      rw [ih fuel (fun p hmem => by
        have hocc := h p hmem
        rw [occursIn, Bool.or_eq_false_iff] at hocc
        exact hocc.2)]

/-- C10: for a mapping with at least one entry and an input string in which
    no marker of the mapping occurs, `from_inline_annotations` succeeds and
    returns the input unchanged together with an empty annotations mapping. -/
theorem c10_marker_free_parse (lm : List (Str × Str)) (s : Str)
    (_hne : lm ≠ []) (h : ∀ p ∈ lm, occursIn p.2 s = false) :
    from_inline_annotations (mkAnnotator lm) s false = .ok (s, []) := by
  have hpats : ∀ p ∈ (invMap lm).map (·.1), occursIn p s = false := by
    intro p hmem
    rcases List.mem_map.mp (invMap_keys_sub p hmem) with ⟨q, hq, rfl⟩
    exact h q hq
  have hscan : finditer (mkAnnotator lm) s = [] :=
    scanAux_no_occurrence s s.length 0 hpats
  have hstrip : subMarkers (mkAnnotator lm) s = s :=
    stripAux_no_occurrence s s.length hpats
  rw [from_inline_annotations, hscan]
  show Except.ok (subMarkers (mkAnnotator lm) s, []) = Except.ok (s, [])
  rw [hstrip]

/-! ## Grouping lemmas: `defaultdict(list)` accumulation -/

theorem appendVal_cons (e : Str × List α) (rest : List (Str × List α)) (k : Str) (v : α) :
    appendVal (e :: rest) k v =
      if e.1 = k then (e.1, e.2 ++ [v]) :: rest else e :: appendVal rest k v := rfl

theorem assocGet_appendVal_self (acc : List (Str × List α)) (k : Str) (v : α) :
    assocGet (appendVal acc k v) k = some ((assocGet acc k).getD [] ++ [v]) := by
  induction acc with
  | nil =>
    show assocGet [(k, [v])] k = _
    rw [assocGet_cons]
    simp
  | cons e rest ih =>
    rw [appendVal_cons]
    by_cases he : e.1 = k
    · rw [if_pos he, assocGet_cons, assocGet_cons, if_pos he, if_pos he]
      rfl
    · rw [if_neg he, assocGet_cons, if_neg he, assocGet_cons, if_neg he, ih]

theorem assocGet_appendVal_ne (acc : List (Str × List α)) {k k' : Str} (v : α)
    (h : k' ≠ k) : assocGet (appendVal acc k v) k' = assocGet acc k' := by
  induction acc with
  | nil =>
    show assocGet [(k, [v])] k' = none
    rw [assocGet_cons, if_neg (fun hh : k = k' => h hh.symm)]
    rfl
  | cons e rest ih =>
    rw [appendVal_cons]
    by_cases he : e.1 = k
    · rw [if_pos he, assocGet_cons, assocGet_cons]
      have hne : ¬ e.1 = k' := by rw [he]; exact fun hh => h hh.symm
      rw [if_neg (by rw [he] at hne ⊢; exact hne), if_neg hne]
    · rw [if_neg he, assocGet_cons, assocGet_cons, ih]

theorem mem_keys_appendVal {acc : List (Str × List α)} {k x : Str} {v : α} :
    x ∈ (appendVal acc k v).map (·.1) ↔ (x ∈ acc.map (·.1) ∨ x = k) := by
  induction acc with
  | nil => simp [appendVal]
  | cons e rest ih =>
    rw [appendVal_cons]
    by_cases he : e.1 = k
    · rw [if_pos he]
      simp only [List.map_cons, List.mem_cons]
      constructor
      · intro hh
        rcases hh with hh | hh
        · exact Or.inl (Or.inl hh)
        · exact Or.inl (Or.inr hh)
      · intro hh
        rcases hh with (hh | hh) | hh
        · exact Or.inl hh
        · exact Or.inr hh
        · exact Or.inl (hh.trans he.symm)
    · rw [if_neg he]
      simp only [List.map_cons, List.mem_cons, ih]
      exact or_assoc.symm

theorem nodup_keys_appendVal {acc : List (Str × List α)} (k : Str) (v : α)
    (h : (acc.map (·.1)).Nodup) : ((appendVal acc k v).map (·.1)).Nodup := by
  induction acc with
  | nil => simp [appendVal]
  | cons e rest ih =>
    rw [List.map_cons, List.nodup_cons] at h
    rw [appendVal_cons]
    by_cases he : e.1 = k
    · rw [if_pos he, List.map_cons, List.nodup_cons]
      exact ⟨h.1, h.2⟩
    · rw [if_neg he, List.map_cons, List.nodup_cons]
      refine ⟨?_, ih h.2⟩
      intro hmem
      rcases mem_keys_appendVal.mp hmem with hh | hh
      · exact h.1 hh
      · exact he hh

theorem foldAdd_nil (acc : List (Str × List α)) : foldAdd [] acc = acc := rfl

theorem foldAdd_cons (x : Str × α) (M : List (Str × α)) (acc : List (Str × List α)) :
    foldAdd (x :: M) acc = foldAdd M (appendVal acc x.1 x.2) := rfl

theorem selVals_nil (k : Str) : selVals k ([] : List (Str × α)) = [] := rfl

theorem selVals_cons (k : Str) (x : Str × α) (M : List (Str × α)) :
    selVals k (x :: M) =
      if x.1 = k then x.2 :: selVals k M else selVals k M := by
  by_cases hx : x.1 = k <;> simp [selVals, List.filter_cons, hx]

theorem foldAdd_get_some {M : List (Str × α)} :
    ∀ {acc : List (Str × List α)} {k : Str} {ps : List α},
      assocGet acc k = some ps →
      assocGet (foldAdd M acc) k = some (ps ++ selVals k M) := by
  induction M with
  | nil =>
    intro acc k ps h
    rw [foldAdd_nil, h, selVals_nil, List.append_nil]
  | cons x M ih =>
    intro acc k ps h
    rw [foldAdd_cons, selVals_cons]
    by_cases hx : x.1 = k
    · have hget : assocGet (appendVal acc x.1 x.2) k = some (ps ++ [x.2]) := by
        rw [hx, assocGet_appendVal_self, h]
        rfl
      rw [ih hget, if_pos hx]
      rw [List.append_assoc]
      rfl
    · have hget : assocGet (appendVal acc x.1 x.2) k = some ps := by
        rw [assocGet_appendVal_ne _ _ (fun hh : k = x.1 => hx hh.symm), h]
      rw [ih hget, if_neg hx]

theorem foldAdd_get_none {M : List (Str × α)} :
    ∀ {acc : List (Str × List α)} {k : Str},
      assocGet acc k = none →
      assocGet (foldAdd M acc) k =
        if (selVals k M).isEmpty then none else some (selVals k M) := by
  induction M with
  | nil =>
    intro acc k h
    rw [foldAdd_nil, h, selVals_nil]
    rfl
  | cons x M ih =>
    intro acc k h
    rw [foldAdd_cons, selVals_cons]
    by_cases hx : x.1 = k
    · have hget : assocGet (appendVal acc x.1 x.2) k = some [x.2] := by
        rw [hx, assocGet_appendVal_self, h]
        rfl
      rw [foldAdd_get_some hget, if_pos hx]
      rfl
    · have hget : assocGet (appendVal acc x.1 x.2) k = none := by
        rw [assocGet_appendVal_ne _ _ (fun hh : k = x.1 => hx hh.symm), h]
      rw [ih hget, if_neg hx]

theorem mem_keys_foldAdd {M : List (Str × α)} :
    ∀ {acc : List (Str × List α)} {x : Str},
      x ∈ (foldAdd M acc).map (·.1) →
      x ∈ acc.map (·.1) ∨ x ∈ M.map (·.1) := by
  induction M with
  | nil => intro acc x h; exact Or.inl h
  | cons y M ih =>
    intro acc x h
    rw [foldAdd_cons] at h
    rcases ih h with h1 | h2
    · rcases mem_keys_appendVal.mp h1 with hh | hh
      · exact Or.inl hh
      · exact Or.inr (by rw [List.map_cons, List.mem_cons]; exact Or.inl hh)
    · exact Or.inr (by rw [List.map_cons, List.mem_cons]; exact Or.inr h2)

theorem nodup_keys_foldAdd {M : List (Str × α)} :
    ∀ {acc : List (Str × List α)}, (acc.map (·.1)).Nodup →
      ((foldAdd M acc).map (·.1)).Nodup := by
  induction M with
  | nil => intro acc h; exact h
  | cons y M ih =>
    intro acc h
    rw [foldAdd_cons]
    exact ih (nodup_keys_appendVal _ _ h)

theorem assocGet_isSome_of_mem_keys {m : List (Str × α)} {k : Str}
    (h : k ∈ m.map (·.1)) : (assocGet m k).isSome := by
  cases hg : assocGet m k with
  | none => exact absurd ((assocGet_eq_none_iff m k).mp hg) (not_not_intro h)
  | some v => rfl

/-! ## The inverse view under injectivity -/

theorem foldl_assocSet_of_nodup {γ : Type} (f : γ → Str) (g : γ → α) :
    ∀ (l : List γ) (acc : List (Str × α)),
      ((acc.map (·.1)) ++ l.map f).Nodup →
      l.foldl (fun acc x => assocSet acc (f x) (g x)) acc =
        acc ++ l.map (fun x => (f x, g x)) := by
  intro l
  induction l with
  | nil => intro acc _; simp
  | cons x rest ih =>
    intro acc h
    rw [List.foldl_cons]
    rw [List.map_cons] at h
    have h' := List.nodup_append.mp h
    have hfresh : f x ∉ acc.map (·.1) := by
      intro hmem
      exact h'.2.2 hmem (List.mem_cons_self _ _)
    rw [assocSet_fresh hfresh]
    have hre : ((acc ++ [(f x, g x)]).map (·.1) ++ rest.map f).Nodup := by
      rw [List.map_append, List.append_assoc]
      have : ((List.map (·.1) acc) ++ ([(f x, g x)].map (·.1) ++ rest.map f)) =
          (List.map (·.1) acc) ++ (f x :: rest.map f) := by
        rfl
      rw [this]
      exact h
    rw [ih _ hre, List.map_cons, List.append_assoc]
    rfl

/-- When the markers are pairwise distinct, the inverse view is literally the
    forward view with every pair swapped. -/
theorem invMap_swap {lm : List (Str × Str)} (h : (lm.map (·.2)).Nodup) :
    invMap lm = lm.map (fun p => (p.2, p.1)) := by
  have := foldl_assocSet_of_nodup (fun p : Str × Str => p.2) (fun p => p.1) lm []
    (by simpa using h)
  simpa [invMap] using this

/-! ## `groupFlat` and `buildAnns` -/

theorem groupFlat_cons (em : List (Str × Str)) (m : Str) (p : Nat)
    (rest : List (Str × Nat)) (acc : List (Str × List Nat)) :
    groupFlat em ((m, p) :: rest) acc =
      match assocGet em m with
      | none => .error .missingMappingError
      | some tag => groupFlat em rest (appendVal acc tag p) := rfl

theorem groupFlat_eq_foldAdd (em : List (Str × Str)) :
    ∀ (M : List (Str × Nat)) (acc : List (Str × List Nat)),
      (∀ x ∈ M, (assocGet em x.1).isSome) →
      groupFlat em M acc =
        .ok (foldAdd (M.map (fun x => ((assocGet em x.1).getD [], x.2))) acc) := by
  intro M
  induction M with
  | nil => intro acc _; rfl
  | cons x M ih =>
    intro acc h
    obtain ⟨m, p⟩ := x
    have hx := h (m, p) (List.mem_cons_self _ _)
    rcases Option.isSome_iff_exists.mp hx with ⟨tag, htag⟩
    rw [groupFlat_cons, htag]
    show groupFlat em M (appendVal acc tag p) = _
    rw [ih _ (fun y hy => h y (List.mem_cons_of_mem _ hy)), List.map_cons,
      foldAdd_cons]
    rw [htag]
    rfl

theorem buildAnns_cons (A : EmojiAnnotator) (ek : Bool) (label : Str)
    (pos : List Nat) (rest : List (Str × List Nat)) (acc : List (Str × List Offs)) :
    buildAnns A ek ((label, pos) :: rest) acc =
      if pos.length % 2 ≠ 0 then .error .unbalancedError
      else
        match (if ek then assocGet A.LABEL_EMOJI_MAPPING label else some label) with
        | none => .error .keyError
        | some key => buildAnns A ek rest (addPairs acc key (pairUp pos)) := rfl

theorem buildAnns_unbalanced_iff (A : EmojiAnnotator) :
    ∀ (flat : List (Str × List Nat)) (acc : List (Str × List Offs)),
      (buildAnns A false flat acc = .error .unbalancedError ↔
        ∃ e ∈ flat, e.2.length % 2 ≠ 0) := by
  intro flat
  induction flat with
  | nil =>
    intro acc
    constructor
    · intro h
      exact absurd h (by intro hh; cases hh)
    · intro h
      rcases h with ⟨e, he, _⟩
      cases he
  | cons e rest ih =>
    intro acc
    obtain ⟨label, pos⟩ := e
    rw [buildAnns_cons]
    by_cases hodd : pos.length % 2 ≠ 0
    · rw [if_pos hodd]
      constructor
      · intro _
        exact ⟨(label, pos), List.mem_cons_self _ _, hodd⟩
      · intro _
        rfl
    · rw [if_neg hodd]
      show buildAnns A false rest (addPairs acc label (pairUp pos)) =
        .error .unbalancedError ↔ _
      rw [ih]
      constructor
      · rintro ⟨e, he, hoo⟩
        exact ⟨e, List.mem_cons_of_mem _ he, hoo⟩
      · rintro ⟨e, he, hoo⟩
        rcases List.mem_cons.mp he with hh | hh
        · rw [hh] at hoo
          exact absurd hoo hodd
        · exact ⟨e, hh, hoo⟩

theorem buildAnns_ok (A : EmojiAnnotator) :
    ∀ (flat : List (Str × List Nat)) (acc : List (Str × List Offs)),
      (∀ e ∈ flat, e.2.length % 2 = 0) →
      buildAnns A false flat acc =
        .ok (flat.foldl (fun acc e => addPairs acc e.1 (pairUp e.2)) acc) := by
  intro flat
  induction flat with
  | nil => intro acc _; rfl
  | cons e rest ih =>
    intro acc h
    obtain ⟨label, pos⟩ := e
    rw [buildAnns_cons,
      if_neg (not_not_intro (h (label, pos) (List.mem_cons_self _ _)))]
    show buildAnns A false rest (addPairs acc label (pairUp pos)) = _
    rw [ih _ (fun y hy => h y (List.mem_cons_of_mem _ hy)), List.foldl_cons]

/-! ## Counting matches (C5) -/

theorem occCount_cons (m : Str) (c : Char) (cs : Str) :
    occCount m (c :: cs) =
      (if m.isPrefixOf (c :: cs) then 1 else 0) + occCount m cs := rfl

theorem occCount_singleton (c : Char) (s : Str) :
    occCount [c] s = s.count c := by
  induction s with
  | nil => simp [occCount]
  | cons d cs ih =>
    rw [occCount_cons, singleton_isPrefixOf, List.count_cons, ih]
    by_cases h : c = d
    · subst h
      simp [Nat.add_comm]
    · have h1 : (c == d) = false := beq_eq_false_iff_ne.mpr h
      have h2 : (d == c) = false := beq_eq_false_iff_ne.mpr (fun hh => h hh.symm)
      rw [h1, h2]
      simp

theorem mem_simpleScan_pats {pats : List Str} :
    ∀ {s : Str} {n : Nat} {x : Str × Nat}, x ∈ simpleScan pats s n → x.1 ∈ pats := by
  intro s
  induction s with
  | nil => intro n x h; cases h
  | cons c cs ih =>
    intro n x h
    rw [simpleScan_cons] at h
    cases hfind : pats.find? (fun p => p == [c]) with
    | some p =>
      rw [hfind] at h
      rcases List.mem_cons.mp h with hh | hh
      · rw [hh]
        exact List.mem_of_find?_eq_some hfind
      · exact ih hh
    | none =>
      rw [hfind] at h
      exact ih h

theorem simpleScan_count {pats : List Str} {c : Char} (hmem : ([c] : Str) ∈ pats) :
    ∀ (s : Str) (n : Nat),
      ((simpleScan pats s n).filter (fun x => decide (x.1 = [c]))).length =
        s.count c := by
  intro s
  induction s with
  | nil =>
    intro n
    rw [show simpleScan pats [] n = [] from rfl]
    simp
  | cons d cs ih =>
    intro n
    rw [simpleScan_cons]
    cases hfind : pats.find? (fun p => p == [d]) with
    | some p =>
      have hbeq := List.find?_some hfind
      have hp : p = [d] := eq_of_beq hbeq
      subst hp
      show (((([d] : Str), n) :: simpleScan pats cs n).filter
        (fun x => decide (x.1 = [c]))).length = (d :: cs).count c
      rw [List.filter_cons]
      by_cases hdc : d = c
      · subst hdc
        rw [if_pos (by simp), List.length_cons, ih n, List.count_cons]
        simp
      · have hne : (decide ((([d] : Str), n).1 = [c])) = false := by
          apply decide_eq_false
          intro hh
          exact hdc (by injection hh)
        rw [if_neg (by rw [hne]; exact Bool.false_ne_true), ih n, List.count_cons]
        rw [beq_eq_false_iff_ne.mpr hdc]
        simp
    | none =>
      have hdc : d ≠ c := by
        intro h
        subst h
        have := List.find?_eq_none.mp hfind [d] hmem
        simp at this
      show ((simpleScan pats cs (n + 1)).filter
        (fun x => decide (x.1 = [c]))).length = (d :: cs).count c
      rw [ih (n + 1), List.count_cons, beq_eq_false_iff_ne.mpr hdc]
      simp

/-- For every entry `(l, m)` of an injective single-character mapping, the
    per-label list accumulated from the scan of `s` has exactly as many
    entries as `m` has occurrences in `s`. -/
theorem selVals_N_length (lm : List (Str × Str)) (s : Str)
    (h1 : (lm.map (·.1)).Nodup) (h2 : (lm.map (·.2)).Nodup)
    (h3 : ∀ p ∈ lm, p.2.length = 1)
    {l m : Str} (hmem : (l, m) ∈ lm) :
    (selVals l ((simpleScan (lm.map (·.2)) s 0).map
        (fun x => ((assocGet (invMap lm) x.1).getD [], x.2)))).length =
      occCount m s := by
  rcases List.length_eq_one.mp (h3 (l, m) hmem) with ⟨c, hc0⟩
  have hc : m = [c] := hc0
  have hswap := invMap_swap h2
  have hkeysn : ((lm.map (fun p => (p.2, p.1))).map (·.1)).Nodup := by
    rw [List.map_map]
    exact h2
  -- the label resolved for a scanned marker q is the (unique) label carrying q
  have hlab : ∀ {entry : Str × Str}, entry ∈ lm →
      (assocGet (invMap lm) entry.2).getD [] = entry.1 := by
    intro entry hentry
    rw [hswap]
    have hgets : assocGet (lm.map (fun p => (p.2, p.1))) entry.2 = some entry.1 := by
      apply assocGet_eq_some_of_mem_nodup hkeysn
      exact List.mem_map.mpr ⟨entry, hentry, rfl⟩
    rw [hgets]
    rfl
  -- step 1: length of selVals over the mapped list is the filtered count on M
  set f : (Str × Nat) → (Str × Nat) :=
    fun x => ((assocGet (invMap lm) x.1).getD [], x.2) with hf
  set M := simpleScan (lm.map (·.2)) s 0 with hM
  have hstep1 : (selVals l (M.map f)).length =
      ((M.filter (fun x => decide ((f x).1 = l)))).length := by
    show (((M.map f).filter (fun y => decide (y.1 = l))).map (·.2)).length = _
    rw [List.length_map, List.filter_map, List.length_map]
    rfl
  -- step 2: the filter predicate agrees with matching the marker itself
  have hstep2 : (M.filter (fun x => decide ((f x).1 = l))) =
      (M.filter (fun x => decide (x.1 = [c]))) := by
    apply List.filter_congr
    intro x hx
    have hq : x.1 ∈ lm.map (·.2) := mem_simpleScan_pats hx
    rcases List.mem_map.mp hq with ⟨entry, hentry, hq2⟩
    have hlabx : (f x).1 = entry.1 := by
      show (assocGet (invMap lm) x.1).getD [] = entry.1
      rw [← hq2]
      exact hlab hentry
    by_cases hqm : x.1 = m
    · have hle : entry.1 = l := by
        have : entry = (l, m) := by
          apply List.inj_on_of_nodup_map h2 hentry hmem
          show entry.2 = m
          rw [hq2, hqm]
        rw [this]
      rw [hlabx, hle, hqm, hc]
      simp
    · have hne : entry.1 ≠ l := by
        intro hle
        have : entry = (l, m) := by
          apply List.inj_on_of_nodup_map h1 hentry hmem
          show entry.1 = l
          exact hle
        exact hqm (by rw [← hq2, this])
      rw [hlabx]
      rw [decide_eq_false hne, decide_eq_false (by rw [← hc]; exact hqm)]
  have hcm : ([c] : Str) ∈ lm.map (·.2) := by
    rw [← hc]
    exact List.mem_map.mpr ⟨(l, m), hmem, rfl⟩
  rw [hstep1, hstep2, simpleScan_count hcm s 0, hc, occCount_singleton]

/-- Chaining a pure continuation after an `Except` step fails with `e`
    exactly when the step itself does. -/
theorem bindOk_eq_error_iff (x : Except Err α) (g : α → γ) (e : Err) :
    (x.bind (fun a => Except.ok (g a)) = Except.error e) ↔ x = Except.error e := by
  cases x with
  | ok a =>
    constructor <;> intro h <;> exact Except.noConfusion h
  | error e' =>
    constructor <;> intro h
    · injection h with he
      rw [he]
    · injection h with he
      rw [he]
      rfl

/-- C5: `from_inline_annotations` (for an injective, single-character-marker
    mapping) fails with the unbalanced-annotation error if and only if some
    label's marker occurs an odd number of times in the marked text. -/
theorem c5_unbalanced_iff_odd (lm : List (Str × Str)) (s : Str)
    (h1 : (lm.map (·.1)).Nodup) (h2 : (lm.map (·.2)).Nodup)
    (h3 : ∀ p ∈ lm, p.2.length = 1) :
    from_inline_annotations (mkAnnotator lm) s false = .error .unbalancedError ↔
      ∃ p ∈ lm, Odd (occCount p.2 s) := by
  have hswap := invMap_swap h2
  have hpatkeys : (invMap lm).map (·.1) = lm.map (·.2) := by
    rw [hswap, List.map_map]
    rfl
  have hp1 : ∀ p ∈ (invMap lm).map (·.1), p.length = 1 := by
    rw [hpatkeys]
    intro p hp
    rcases List.mem_map.mp hp with ⟨q, hq, rfl⟩
    exact h3 q hq
  have hscan : finditer (mkAnnotator lm) s = simpleScan (lm.map (·.2)) s 0 := by
    show scanAux ((invMap lm).map (·.1)) s.length s 0 = _
    rw [scanAux_singleton hp1 s s.length 0 (Nat.le_refl _), hpatkeys]
  set M := simpleScan (lm.map (·.2)) s 0 with hM
  set N := M.map (fun x => ((assocGet (invMap lm) x.1).getD [], x.2)) with hN
  set flat := foldAdd N [] with hflat
  have hlook : ∀ x ∈ M, (assocGet (invMap lm) x.1).isSome := by
    intro x hx
    apply assocGet_isSome_of_mem_keys
    rw [hpatkeys]
    exact mem_simpleScan_pats hx
  have hgroup : groupFlat (invMap lm) M [] = .ok flat :=
    groupFlat_eq_foldAdd (invMap lm) M [] hlook
  have hfi : from_inline_annotations (mkAnnotator lm) s false =
      (buildAnns (mkAnnotator lm) false flat []).bind
        (fun anns => Except.ok (subMarkers (mkAnnotator lm) s, anns)) := by
    unfold from_inline_annotations
    rw [show (mkAnnotator lm).EMOJI_LABEL_MAPPING = invMap lm from rfl, hscan,
      hgroup]
    rfl
  rw [hfi, bindOk_eq_error_iff, buildAnns_unbalanced_iff]
  have hkeysflat : (flat.map (·.1)).Nodup := nodup_keys_foldAdd (by simp)
  constructor
  · rintro ⟨e, he, hodd⟩
    have hkeymem : e.1 ∈ flat.map (·.1) := List.mem_map.mpr ⟨e, he, rfl⟩
    have hkN : e.1 ∈ N.map (·.1) := by
      rcases mem_keys_foldAdd hkeymem with h0 | h0
      · exact absurd h0 (List.not_mem_nil _)
      · exact h0
    rcases List.mem_map.mp hkN with ⟨y, hyN, hy1⟩
    rcases List.mem_map.mp hyN with ⟨x, hxM, hyx⟩
    have hq : x.1 ∈ lm.map (·.2) := mem_simpleScan_pats hxM
    rcases List.mem_map.mp hq with ⟨entry, hentry, hq2⟩
    have hlab : (assocGet (invMap lm) x.1).getD [] = entry.1 := by
      rw [hswap]
      have hgets : assocGet (lm.map (fun p => (p.2, p.1))) x.1 = some entry.1 := by
        apply assocGet_eq_some_of_mem_nodup (by rw [List.map_map]; exact h2)
        exact List.mem_map.mpr ⟨entry, hentry, by rw [hq2]⟩
      rw [hgets]
      rfl
    have hent1 : entry.1 = e.1 := by
      rw [← hy1, ← hyx]
      exact hlab.symm
    have hget2 := foldAdd_get_none (M := N) (assocGet_nil e.1)
    have hget : assocGet flat e.1 = some e.2 :=
      assocGet_eq_some_of_mem_nodup hkeysflat he
    rw [hget] at hget2
    by_cases hemp : (selVals e.1 N).isEmpty
    · rw [if_pos hemp] at hget2
      exact absurd hget2 (by simp)
    · rw [if_neg hemp] at hget2
      have he2 : e.2 = selVals e.1 N := Option.some_inj.mp hget2
      have hlen : (selVals entry.1 N).length = occCount entry.2 s :=
        selVals_N_length lm s h1 h2 h3 hentry
      rw [hent1] at hlen
      refine ⟨entry, hentry, ?_⟩
      rw [Nat.odd_iff]
      have hodd2 : (selVals e.1 N).length % 2 ≠ 0 := by
        rw [← he2]
        exact hodd
      rw [hlen] at hodd2
      omega
  · rintro ⟨p, hp, hodd⟩
    obtain ⟨l, m⟩ := p
    have hlen : (selVals l N).length = occCount m s :=
      selVals_N_length lm s h1 h2 h3 hp
    have hpos : (selVals l N).length % 2 = 1 := by
      rw [hlen]
      exact Nat.odd_iff.mp hodd
    have hne0 : (selVals l N).isEmpty = false := by
      cases hsel : selVals l N with
      | nil => rw [hsel] at hpos; simp at hpos
      | cons a as => rfl
    have hget : assocGet flat l = some (selVals l N) := by
      have hg := foldAdd_get_none (M := N) (assocGet_nil l)
      rw [hne0] at hg
      simpa using hg
    refine ⟨(l, selVals l N), assocGet_mem hget, ?_⟩
    show (selVals l N).length % 2 ≠ 0
    omega

/-- Witness for C5: three occurrences of the marker `"X"` (an odd number)
    make the parse fail with the unbalanced error. -/
theorem c5_unbalanced_iff_odd_witness :
    from_inline_annotations (mkAnnotator [(['a'], ['X'])]) "XabXcdX".toList
      false = .error .unbalancedError :=
  (c5_unbalanced_iff_odd [(['a'], ['X'])] "XabXcdX".toList (by decide) (by decide)
    (by decide)).mpr ⟨(['a'], ['X']), by decide, by decide⟩

/-- Witness for C10 on a concrete mapping and marker-free string. -/
theorem c10_marker_free_parse_witness :
    ([(['a'], ['X']), (['b'], ['Y'])] ≠ ([] : List (Str × Str))) ∧
      (∀ p ∈ [(['a'], ['X']), (['b'], ['Y'])],
        occursIn (Prod.snd p) "plain".toList = false) ∧
      from_inline_annotations (mkAnnotator [(['a'], ['X']), (['b'], ['Y'])])
        "plain".toList false = .ok ("plain".toList, []) :=
  ⟨by decide, by decide,
    c10_marker_free_parse [(['a'], ['X']), (['b'], ['Y'])] "plain".toList
      (by decide) (by decide)⟩

/-! ## Stable sort lemmas -/

theorem insStep_nil (le : α → α → Bool) (x : α) : insStep le x [] = [x] := rfl

theorem insStep_cons (le : α → α → Bool) (x y : α) (ys : List α) :
    insStep le x (y :: ys) =
      if le x y then x :: y :: ys else y :: insStep le x ys := rfl

theorem insStep_perm (le : α → α → Bool) (x : α) :
    ∀ l : List α, List.Perm (insStep le x l) (x :: l) := by
  intro l
  induction l with
  | nil => exact List.Perm.refl _
  | cons y ys ih =>
    rw [insStep_cons]
    by_cases h : le x y
    · rw [if_pos h]
    · rw [if_neg h]
      exact (ih.cons y).trans (List.Perm.swap x y ys)

theorem stableSort_perm (le : α → α → Bool) :
    ∀ l : List α, List.Perm (stableSort le l) l := by
  intro l
  induction l with
  | nil => exact List.Perm.refl _
  | cons x xs ih =>
    show List.Perm (insStep le x (stableSort le xs)) (x :: xs)
    exact (insStep_perm le x _).trans (ih.cons x)

theorem insStep_pairwise {le : α → α → Bool}
    (htot : ∀ a b, le a b = true ∨ le b a = true)
    (htrans : ∀ a b c, le a b = true → le b c = true → le a c = true)
    (x : α) :
    ∀ {l : List α}, l.Pairwise (fun a b => le a b = true) →
      (insStep le x l).Pairwise (fun a b => le a b = true) := by
  intro l
  induction l with
  | nil =>
    intro _
    simp [insStep]
  | cons y ys ih =>
    intro hl
    rw [List.pairwise_cons] at hl
    rw [insStep_cons]
    by_cases h : le x y
    · rw [if_pos h]
      apply List.pairwise_cons.mpr
      refine ⟨?_, List.pairwise_cons.mpr hl⟩
      intro z hz
      rcases List.mem_cons.mp hz with hz | hz
      · rw [hz]
        exact h
      · exact htrans x y z h (hl.1 z hz)
    · rw [if_neg h]
      apply List.pairwise_cons.mpr
      constructor
      · intro z hz
        have hz' : z ∈ x :: ys := (insStep_perm le x ys).mem_iff.mp hz
        rcases List.mem_cons.mp hz' with hz' | hz'
        · rw [hz']
          rcases htot x y with ht | ht
          · exact absurd ht h
          · exact ht
        · exact hl.1 z hz'
      · exact ih hl.2

theorem stableSort_pairwise {le : α → α → Bool}
    (htot : ∀ a b, le a b = true ∨ le b a = true)
    (htrans : ∀ a b c, le a b = true → le b c = true → le a c = true) :
    ∀ l : List α, (stableSort le l).Pairwise (fun a b => le a b = true) := by
  intro l
  induction l with
  | nil => simp [stableSort]
  | cons x xs ih =>
    show (insStep le x (stableSort le xs)).Pairwise _
    exact insStep_pairwise htot htrans x ih

theorem descLe_total (ord : List Str) (x y : Nat × Str) :
    descLe ord x y = true ∨ descLe ord y x = true := by
  simp only [descLe, Bool.or_eq_true, Bool.and_eq_true, decide_eq_true_eq]
  rcases Nat.lt_trichotomy x.1 y.1 with h | h | h
  · right
    left
    exact h
  · rcases Nat.le_total (tagIdx ord x.2) (tagIdx ord y.2) with hi | hi
    · right
      right
      exact ⟨h, hi⟩
    · left
      right
      exact ⟨h.symm, hi⟩
  · left
    left
    exact h

theorem descLe_trans (ord : List Str) (x y z : Nat × Str)
    (hxy : descLe ord x y = true) (hyz : descLe ord y z = true) :
    descLe ord x z = true := by
  simp only [descLe, Bool.or_eq_true, Bool.and_eq_true, decide_eq_true_eq] at *
  rcases hxy with h1 | ⟨h1, h2⟩ <;> rcases hyz with h3 | ⟨h3, h4⟩
  · left; omega
  · left; omega
  · left; omega
  · right
    exact ⟨by omega, Nat.le_trans h4 h2⟩

theorem descLe_offset {ord : List Str} {x y : Nat × Str}
    (h : descLe ord x y = true) : y.1 ≤ x.1 := by
  simp only [descLe, Bool.or_eq_true, Bool.and_eq_true, decide_eq_true_eq] at h
  rcases h with h | ⟨h, _⟩
  · omega
  · omega

/-! ## The insertion sequence of the loop -/

theorem loopIns_one (t : Str) (last : Option (Nat × Str)) (sw : Bool)
    (x : Nat × Str) :
    loopIns t last sw [x] =
      (if sw then
        match last with
        | some l => insertAt t l.1 l.2
        | none => insertAt t x.1 x.2
      else insertAt t x.1 x.2) := rfl

theorem loopIns_cons2 (t : Str) (last : Option (Nat × Str)) (sw : Bool)
    (c n : Nat × Str) (rest : List (Nat × Str)) :
    loopIns t last sw (c :: n :: rest) =
      (if sw then
        (match last with
         | some l => loopIns (insertAt t l.1 l.2) (some c) false (n :: rest)
         | none => loopIns t (some c) false (n :: rest))
      else if decide (c.1 = n.1) &&
          (match last with | some l => decide (l.2 = n.2) | none => false) then
        loopIns (insertAt t n.1 n.2) (some c) true (n :: rest)
      else
        loopIns (insertAt t c.1 c.2) (some c) false (n :: rest)) := rfl

theorem insSeq_one (last : Option (Nat × Str)) (sw : Bool) (x : Nat × Str) :
    insSeq last sw [x] =
      (if sw then
        match last with
        | some l => [l]
        | none => [x]
      else [x]) := rfl

theorem insSeq_cons2 (last : Option (Nat × Str)) (sw : Bool)
    (c n : Nat × Str) (rest : List (Nat × Str)) :
    insSeq last sw (c :: n :: rest) =
      (if sw then
        (match last with
         | some l => l :: insSeq (some c) false (n :: rest)
         | none => insSeq (some c) false (n :: rest))
      else if decide (c.1 = n.1) &&
          (match last with | some l => decide (l.2 = n.2) | none => false) then
        n :: insSeq (some c) true (n :: rest)
      else
        c :: insSeq (some c) false (n :: rest)) := rfl

theorem applyIns_nil (t : Str) : applyIns t [] = t := rfl

theorem applyIns_cons (t : Str) (e : Nat × Str) (seq : List (Nat × Str)) :
    applyIns t (e :: seq) = applyIns (insertAt t e.1 e.2) seq := rfl

/-- The interleaved loop equals performing the extracted insertion sequence. -/
theorem loopIns_eq_applyIns :
    ∀ (l : List (Nat × Str)) (t : Str) (last : Option (Nat × Str)) (sw : Bool),
      loopIns t last sw l = applyIns t (insSeq last sw l) := by
  intro l
  induction l with
  | nil => intro t last sw; rfl
  | cons c rest ih =>
    intro t last sw
    cases rest with
    | nil => cases sw <;> cases last <;> rfl
    | cons n rest' =>
      rw [loopIns_cons2, insSeq_cons2]
      cases sw with
      | true =>
        cases last with
        | some lst =>
          rw [if_pos rfl, if_pos rfl]
          show loopIns (insertAt t lst.1 lst.2) (some c) false (n :: rest') =
            applyIns t (lst :: insSeq (some c) false (n :: rest'))
          rw [applyIns_cons]
          exact ih _ (some c) false
        | none =>
          rw [if_pos rfl, if_pos rfl]
          exact ih t (some c) false
      | false =>
        rw [if_neg Bool.false_ne_true, if_neg Bool.false_ne_true]
        by_cases hcond : (decide (c.1 = n.1) &&
            (match last with | some l => decide (l.2 = n.2) | none => false)) = true
        · rw [if_pos hcond, if_pos hcond, ih, applyIns_cons]
        · rw [if_neg hcond, if_neg hcond, ih, applyIns_cons]

/-- The insertion sequence is a permutation of the event list, and preserves
    non-increasing offsets (the switch only swaps equal-offset neighbours). -/
theorem insSeq_perm_nonIncr :
    ∀ (k : Nat) (l : List (Nat × Str)) (p : Nat × Str), l.length ≤ k → l ≠ [] →
      (List.Perm (insSeq (some p) false l) l ∧
        (NonIncr l → NonIncr (insSeq (some p) false l))) := by
  intro k
  induction k with
  | zero =>
    intro l p hl hne
    cases l with
    | nil => exact absurd rfl hne
    | cons a as => simp at hl
  | succ k ih =>
    intro l p hl hne
    match l with
    | [x] =>
      rw [insSeq_one, if_neg Bool.false_ne_true]
      exact ⟨List.Perm.refl _, fun h => h⟩
    | c :: n :: rest =>
      rw [insSeq_cons2, if_neg Bool.false_ne_true]
      by_cases hcond : (decide (c.1 = n.1) && decide (p.2 = n.2)) = true
      · rw [if_pos hcond]
        have hcn : c.1 = n.1 := by
          rw [Bool.and_eq_true, decide_eq_true_eq, decide_eq_true_eq] at hcond
          exact hcond.1
        cases rest with
        | nil =>
          rw [show insSeq (some c) true [n] = [c] from rfl]
          constructor
          · exact List.Perm.swap c n []
          · intro _
            apply List.pairwise_cons.mpr
            refine ⟨?_, List.pairwise_singleton _ _⟩
            intro z hz
            rw [List.mem_singleton] at hz
            rw [hz, hcn]
        | cons m more =>
          rw [show insSeq (some c) true (n :: m :: more) =
            c :: insSeq (some n) false (m :: more) from rfl]
          have hlen : (m :: more).length ≤ k := by
            simp at hl ⊢
            omega
          have hrec := ih (m :: more) n hlen (by simp)
          constructor
          · exact ((hrec.1.cons c).cons n).trans (List.Perm.swap c n _)
          · intro hni
            have hni' : NonIncr (n :: m :: more) := (List.pairwise_cons.mp hni).2
            have hnmore : NonIncr (m :: more) := (List.pairwise_cons.mp hni').2
            have hS := hrec.2 hnmore
            have hmemS : ∀ z ∈ insSeq (some n) false (m :: more), z ∈ m :: more :=
              fun z hz => (hrec.1.mem_iff).mp hz
            apply List.pairwise_cons.mpr
            constructor
            · intro z hz
              rcases List.mem_cons.mp hz with hz | hz
              · rw [hz, hcn]
              · exact (List.pairwise_cons.mp hni').1 z (hmemS z hz)
            · apply List.pairwise_cons.mpr
              refine ⟨?_, hS⟩
              intro z hz
              exact (List.pairwise_cons.mp hni).1 z
                (List.mem_cons_of_mem _ (hmemS z hz))
      · rw [if_neg hcond]
        have hlen : (n :: rest).length ≤ k := by
          simp at hl ⊢
          omega
        have hrec := ih (n :: rest) c hlen (by simp)
        constructor
        · exact hrec.1.cons c
        · intro hni
          have hni' : NonIncr (n :: rest) := (List.pairwise_cons.mp hni).2
          apply List.pairwise_cons.mpr
          refine ⟨?_, hrec.2 hni'⟩
          intro z hz
          exact (List.pairwise_cons.mp hni).1 z ((hrec.1.mem_iff).mp hz)

theorem insSeq_entry :
    ∀ (l : List (Nat × Str)),
      List.Perm (insSeq none false l) l ∧ (NonIncr l → NonIncr (insSeq none false l)) := by
  intro l
  match l with
  | [] => exact ⟨List.Perm.refl _, fun h => h⟩
  | [x] =>
    rw [insSeq_one, if_neg Bool.false_ne_true]
    exact ⟨List.Perm.refl _, fun h => h⟩
  | c :: n :: rest =>
    rw [insSeq_cons2, if_neg Bool.false_ne_true,
      if_neg (by simp)]
    have hrec := insSeq_perm_nonIncr (n :: rest).length (n :: rest) c
      (Nat.le_refl _) (by simp)
    constructor
    · exact hrec.1.cons c
    · intro hni
      have hni' : NonIncr (n :: rest) := (List.pairwise_cons.mp hni).2
      apply List.pairwise_cons.mpr
      refine ⟨?_, hrec.2 hni'⟩
      intro z hz
      exact (List.pairwise_cons.mp hni).1 z ((hrec.1.mem_iff).mp hz)

/-! ## Insertions at non-increasing offsets weave into the text -/

theorem insertAt_length (t : Str) (p : Nat) (m : Str) :
    (insertAt t p m).length = t.length + m.length := by
  simp [insertAt]
  omega

theorem insertAt_append {a : Str} (b : Str) {p : Nat} (hp : p ≤ a.length) (m : Str) :
    insertAt (a ++ b) p m = insertAt a p m ++ b := by
  unfold insertAt
  rw [List.take_append_of_le_length hp, List.drop_append_of_le_length hp]
  simp [List.append_assoc]

theorem applyIns_append :
    ∀ (seq : List (Nat × Str)) (a b : Str), (∀ e ∈ seq, e.1 ≤ a.length) →
      applyIns (a ++ b) seq = applyIns a seq ++ b := by
  intro seq
  induction seq with
  | nil => intro a b _; rfl
  | cons e seq ih =>
    intro a b h
    rw [applyIns_cons, applyIns_cons,
      insertAt_append b (h e (List.mem_cons_self _ _)) e.2]
    apply ih
    intro e' he'
    rw [insertAt_length]
    exact Nat.le_trans (h e' (List.mem_cons_of_mem _ he')) (Nat.le_add_right _ _)

theorem weaveW_nil (t : Str) : weaveW t [] = t := rfl

theorem weaveW_cons (t : Str) (o : Nat) (m : Str) (rest : List (Nat × Str)) :
    weaveW t ((o, m) :: rest) = weaveW (t.take o) rest ++ m ++ t.drop o := rfl

theorem applyIns_eq_weaveW :
    ∀ (seq : List (Nat × Str)) (t : Str), NonIncr seq →
      (∀ e ∈ seq, e.1 ≤ t.length) → applyIns t seq = weaveW t seq := by
  intro seq
  induction seq with
  | nil => intro t _ _; rfl
  | cons e seq ih =>
    intro t hni hb
    obtain ⟨o, m⟩ := e
    have ho : o ≤ t.length := hb (o, m) (List.mem_cons_self _ _)
    have htake : (t.take o).length = o := by
      rw [List.length_take]
      omega
    have hseq_le : ∀ e ∈ seq, e.1 ≤ o :=
      fun e he => (List.pairwise_cons.mp hni).1 e he
    rw [applyIns_cons, weaveW_cons]
    have h1 : insertAt t o m = (t.take o ++ m) ++ t.drop o := by
      simp [insertAt, List.append_assoc]
    rw [h1]
    rw [applyIns_append seq _ (t.drop o) (by
      intro e' he'
      rw [List.length_append, htake]
      exact Nat.le_trans (hseq_le e' he') (Nat.le_add_right _ _))]
    rw [applyIns_append seq (t.take o) m (by
      intro e' he'
      rw [htake]
      exact hseq_le e' he')]
    rw [ih (t.take o) (List.pairwise_cons.mp hni).2 (by
      intro e' he'
      rw [htake]
      exact hseq_le e' he')]

/-! ## Scanning a woven text recovers the insertions -/

theorem simpleScan_all_plain {pats : List Str} :
    ∀ {t : Str} (n : Nat), (∀ ch ∈ t, pats.find? (fun p => p == [ch]) = none) →
      simpleScan pats t n = [] := by
  intro t
  induction t with
  | nil => intro n _; rfl
  | cons c cs ih =>
    intro n h
    rw [simpleScan_cons, h c (List.mem_cons_self _ _)]
    exact ih (n + 1) (fun ch hch => h ch (List.mem_cons_of_mem _ hch))

theorem simpleStrip_all_plain {pats : List Str} {t : Str}
    (h : ∀ ch ∈ t, pats.find? (fun p => p == [ch]) = none) :
    simpleStrip pats t = t := by
  apply List.filter_eq_self.mpr
  intro a ha
  rw [h a ha]
  rfl

theorem find?_isSome_of_mem {pats : List Str} {ch : Char}
    (h : ([ch] : Str) ∈ pats) : (pats.find? (fun p => p == [ch])).isSome := by
  cases hf : pats.find? (fun p => p == [ch]) with
  | none =>
    have := List.find?_eq_none.mp hf [ch] h
    simp at this
  | some q => rfl

theorem simpleStrip_marker {pats : List Str} {ch : Char}
    (h : ([ch] : Str) ∈ pats) : simpleStrip pats [ch] = [] := by
  rw [simpleStrip, List.filter_cons]
  rcases Option.isSome_iff_exists.mp (find?_isSome_of_mem h) with ⟨q, hq⟩
  rw [hq]
  rfl

theorem simpleStrip_append (pats : List Str) (xs ys : Str) :
    simpleStrip pats (xs ++ ys) = simpleStrip pats xs ++ simpleStrip pats ys :=
  List.filter_append _ _

theorem simpleScan_append (pats : List Str) :
    ∀ (xs ys : Str) (n : Nat),
      simpleScan pats (xs ++ ys) n =
        simpleScan pats xs n ++
          simpleScan pats ys (n + (simpleStrip pats xs).length) := by
  intro xs
  induction xs with
  | nil =>
    intro ys n
    rw [List.nil_append, show simpleScan pats [] n = [] from rfl, List.nil_append,
      show (simpleStrip pats ([] : Str)).length = 0 from rfl, Nat.add_zero]
  | cons c cs ih =>
    intro ys n
    rw [List.cons_append, simpleScan_cons, simpleScan_cons]
    cases hfind : pats.find? (fun p => p == [c]) with
    | some p =>
      show (p, n) :: simpleScan pats (cs ++ ys) n =
        ((p, n) :: simpleScan pats cs n) ++
          simpleScan pats ys (n + (simpleStrip pats (c :: cs)).length)
      have hs : simpleStrip pats (c :: cs) = simpleStrip pats cs := by
        simp [simpleStrip, List.filter_cons, hfind]
      rw [hs, ih]
      rfl
    | none =>
      show simpleScan pats (cs ++ ys) (n + 1) =
        simpleScan pats cs (n + 1) ++
          simpleScan pats ys (n + (simpleStrip pats (c :: cs)).length)
      have hs : simpleStrip pats (c :: cs) = c :: simpleStrip pats cs := by
        simp [simpleStrip, List.filter_cons, hfind]
      rw [hs, List.length_cons, ih]
      have harith : n + 1 + (simpleStrip pats cs).length =
          n + ((simpleStrip pats cs).length + 1) := by omega
      rw [harith]

theorem simpleStrip_weaveW {pats : List Str} :
    ∀ (seq : List (Nat × Str)) (t : Str), NonIncr seq →
      (∀ e ∈ seq, e.1 ≤ t.length) →
      (∀ ch ∈ t, pats.find? (fun p => p == [ch]) = none) →
      (∀ e ∈ seq, ∃ ch, e.2 = [ch] ∧ ([ch] : Str) ∈ pats) →
      simpleStrip pats (weaveW t seq) = t := by
  intro seq
  induction seq with
  | nil => intro t _ _ hplain _; exact simpleStrip_all_plain hplain
  | cons e seq ih =>
    intro t hni hb hplain htags
    obtain ⟨o, m⟩ := e
    have ho : o ≤ t.length := hb (o, m) (List.mem_cons_self _ _)
    have htake : (t.take o).length = o := by
      rw [List.length_take]
      omega
    rcases htags (o, m) (List.mem_cons_self _ _) with ⟨ch, hm, hchp⟩
    rw [weaveW_cons, simpleStrip_append, simpleStrip_append]
    rw [ih (t.take o) (List.pairwise_cons.mp hni).2
      (fun e' he' => by
        rw [htake]
        exact (List.pairwise_cons.mp hni).1 e' he')
      (fun ch' hch' => hplain ch' (List.mem_of_mem_take hch'))
      (fun e' he' => htags e' (List.mem_cons_of_mem _ he'))]
    rw [show (m : Str) = [ch] from hm, simpleStrip_marker hchp]
    rw [simpleStrip_all_plain (fun ch' hch' => hplain ch' (List.mem_of_mem_drop hch'))]
    rw [List.append_nil]
    exact List.take_append_drop o t

theorem simpleScan_weaveW {pats : List Str} :
    ∀ (seq : List (Nat × Str)) (t : Str), NonIncr seq →
      (∀ e ∈ seq, e.1 ≤ t.length) →
      (∀ ch ∈ t, pats.find? (fun p => p == [ch]) = none) →
      (∀ e ∈ seq, ∃ ch, e.2 = [ch] ∧ ([ch] : Str) ∈ pats) →
      simpleScan pats (weaveW t seq) 0 =
        (seq.reverse).map (fun e => (e.2, e.1)) := by
  intro seq
  induction seq with
  | nil => intro t _ _ hplain _; exact simpleScan_all_plain 0 hplain
  | cons e seq ih =>
    intro t hni hb hplain htags
    obtain ⟨o, m⟩ := e
    have ho : o ≤ t.length := hb (o, m) (List.mem_cons_self _ _)
    have htake : (t.take o).length = o := by
      rw [List.length_take]
      omega
    have hbtail : ∀ e' ∈ seq, e'.1 ≤ (t.take o).length := fun e' he' => by
      rw [htake]
      exact (List.pairwise_cons.mp hni).1 e' he'
    have hplaintake : ∀ ch' ∈ t.take o, pats.find? (fun p => p == [ch']) = none :=
      fun ch' hch' => hplain ch' (List.mem_of_mem_take hch')
    have htagstail : ∀ e' ∈ seq, ∃ ch, e'.2 = [ch] ∧ ([ch] : Str) ∈ pats :=
      fun e' he' => htags e' (List.mem_cons_of_mem _ he')
    rcases htags (o, m) (List.mem_cons_self _ _) with ⟨ch, hm, hchp⟩
    rw [weaveW_cons, List.append_assoc, simpleScan_append]
    rw [simpleStrip_weaveW seq (t.take o) (List.pairwise_cons.mp hni).2 hbtail
      hplaintake htagstail]
    rw [htake, Nat.zero_add]
    rw [ih (t.take o) (List.pairwise_cons.mp hni).2 hbtail hplaintake htagstail]
    have hscanm : simpleScan pats ((m : Str) ++ t.drop o) o = [(m, o)] := by
      rw [show (m : Str) = [ch] from hm]
      rw [show (([ch] : Str) ++ t.drop o) = ch :: t.drop o from rfl, simpleScan_cons]
      rcases Option.isSome_iff_exists.mp (find?_isSome_of_mem hchp) with ⟨q, hq⟩
      rw [hq]
      have hbeq := List.find?_some hq
      have hqch : q = [ch] := eq_of_beq hbeq
      rw [simpleScan_all_plain o
        (fun ch' hch' => hplain ch' (List.mem_of_mem_drop hch')), hqch]
    rw [hscanm, List.reverse_cons, List.map_append]
    rfl


/-! ## Auxiliary lemmas for the round trip -/

theorem occursIn_singleton_false {c : Char} {t : Str}
    (h : occursIn [c] t = false) : c ∉ t := by
  induction t with
  | nil => exact List.not_mem_nil c
  | cons d cs ih =>
    rw [occursIn, Bool.or_eq_false_iff] at h
    rw [singleton_isPrefixOf] at h
    intro hmem
    rcases List.mem_cons.mp hmem with hh | hh
    · rw [hh] at h
      simp at h
    · exact ih h.2 hh

theorem find?_none_of_free {pats : List Str} {t : Str}
    (hfree : ∀ p ∈ pats, occursIn p t = false) :
    ∀ ch ∈ t, pats.find? (fun p => p == [ch]) = none := by
  intro ch hch
  rw [List.find?_eq_none]
  intro p hp hbeq
  have hpch : p = [ch] := eq_of_beq hbeq
  have hfp := hfree p hp
  rw [hpch] at hfp
  exact occursIn_singleton_false hfp hch

theorem flattenOffs_cons (o : Offs) (rest : List Offs) :
    flattenOffs (o :: rest) = o.1 :: o.2 :: flattenOffs rest := rfl

theorem flattenAnn_cons (a : Str × List Offs) (rest : List (Str × List Offs)) :
    flattenAnn (a :: rest) =
      (flattenOffs a.2).map (fun off => (off, a.1)) ++ flattenAnn rest := rfl

theorem mem_flattenOffs {l : List Offs} {x : Nat} :
    x ∈ flattenOffs l ↔ ∃ o ∈ l, x = o.1 ∨ x = o.2 := by
  induction l with
  | nil => simp [flattenOffs]
  | cons o rest ih =>
    rw [flattenOffs_cons]
    constructor
    · intro h
      rcases List.mem_cons.mp h with hh | hh
      · exact ⟨o, List.mem_cons_self _ _, Or.inl hh⟩
      · rcases List.mem_cons.mp hh with hh2 | hh2
        · exact ⟨o, List.mem_cons_self _ _, Or.inr hh2⟩
        · rcases ih.mp hh2 with ⟨o', ho', hc⟩
          exact ⟨o', List.mem_cons_of_mem _ ho', hc⟩
    · rintro ⟨o', ho', hc⟩
      rcases List.mem_cons.mp ho' with hh | hh
      · rw [hh] at hc
        rcases hc with rfl | rfl
        · exact List.mem_cons_self _ _
        · exact List.mem_cons_of_mem _ (List.mem_cons_self _ _)
      · exact List.mem_cons_of_mem _
          (List.mem_cons_of_mem _ (ih.mpr ⟨o', hh, hc⟩))

theorem mem_flattenAnn {anns : List (Str × List Offs)} {x : Nat × Str} :
    x ∈ flattenAnn anns ↔ ∃ a ∈ anns, x.2 = a.1 ∧ x.1 ∈ flattenOffs a.2 := by
  induction anns with
  | nil => simp [flattenAnn]
  | cons a rest ih =>
    rw [flattenAnn_cons, List.mem_append]
    constructor
    · intro h
      rcases h with h | h
      · rcases List.mem_map.mp h with ⟨off, hoff, hx⟩
        exact ⟨a, List.mem_cons_self _ _, by rw [← hx], by rw [← hx]; exact hoff⟩
      · rcases ih.mp h with ⟨a', ha', hx⟩
        exact ⟨a', List.mem_cons_of_mem _ ha', hx⟩
    · rintro ⟨a', ha', htag, hoff⟩
      rcases List.mem_cons.mp ha' with hh | hh
      · left
        apply List.mem_map.mpr
        rw [hh] at htag hoff
        refine ⟨x.1, hoff, ?_⟩
        calc (x.1, a.1) = (x.1, x.2) := by rw [htag]
          _ = x := rfl
      · exact Or.inr (ih.mpr ⟨a', hh, htag, hoff⟩)

theorem flattenAnn_filter_nil {anns : List (Str × List Offs)} {k : Str}
    (h : ∀ a ∈ anns, a.1 ≠ k) :
    (flattenAnn anns).filter (fun x => decide (x.2 = k)) = [] := by
  rw [List.filter_eq_nil_iff]
  intro x hx
  rcases mem_flattenAnn.mp hx with ⟨a, ha, htag, _⟩
  rw [decide_eq_true_eq]
  intro hk
  exact h a ha (by rw [← htag, hk])

theorem flattenAnn_filter {anns : List (Str × List Offs)} {k : Str} {sp : List Offs}
    (hnd : (anns.map (·.1)).Nodup) (hmem : (k, sp) ∈ anns) :
    (flattenAnn anns).filter (fun x => decide (x.2 = k)) =
      (flattenOffs sp).map (fun off => (off, k)) := by
  induction anns with
  | nil => cases hmem
  | cons a rest ih =>
    rw [List.map_cons, List.nodup_cons] at hnd
    rw [flattenAnn_cons, List.filter_append]
    rcases List.mem_cons.mp hmem with hh | hh
    · have hrest : (flattenAnn rest).filter (fun x => decide (x.2 = k)) = [] := by
        apply flattenAnn_filter_nil
        intro b hb hbk
        apply hnd.1
        exact List.mem_map.mpr ⟨b, hb, by rw [hbk, ← hh]⟩
      rw [hrest, List.append_nil]
      have hkeep : ((flattenOffs a.2).map (fun off => (off, a.1))).filter
          (fun x => decide (x.2 = k)) =
          (flattenOffs a.2).map (fun off => (off, a.1)) := by
        apply List.filter_eq_self.mpr
        intro x hx
        rcases List.mem_map.mp hx with ⟨off, _, hx2⟩
        rw [decide_eq_true_eq, ← hx2, ← hh]
      rw [hkeep, ← hh]
    · have hak : a.1 ≠ k := by
        intro hk
        apply hnd.1
        rw [hk]
        exact List.mem_map.mpr ⟨(k, sp), hh, rfl⟩
      have hdrop : ((flattenOffs a.2).map (fun off => (off, a.1))).filter
          (fun x => decide (x.2 = k)) = [] := by
        rw [List.filter_eq_nil_iff]
        intro x hx
        rcases List.mem_map.mp hx with ⟨off, _, hx2⟩
        rw [decide_eq_true_eq, ← hx2]
        exact hak
      rw [hdrop, List.nil_append]
      exact ih hnd.2 hh

theorem wfSpans_one (s e : Nat) : wfSpans [(s, e)] = decide (s < e) := rfl

theorem wfSpans_cons2 (s e s' e' : Nat) (r : List Offs) :
    wfSpans ((s, e) :: (s', e') :: r) =
      (decide (s < e) && decide (e ≤ s') && wfSpans ((s', e') :: r)) := rfl

theorem wfSpans_start_lt :
    ∀ {l : List Offs}, wfSpans l = true → ∀ o ∈ l, o.1 < o.2 := by
  intro l
  induction l with
  | nil => intro _ o ho; cases ho
  | cons o rest ih =>
    intro hwf o' ho'
    obtain ⟨s, e⟩ := o
    have hhead : s < e ∧ wfSpans rest = true := by
      cases rest with
      | nil =>
        rw [wfSpans_one, decide_eq_true_eq] at hwf
        exact ⟨hwf, rfl⟩
      | cons o2 r2 =>
        obtain ⟨s', e'⟩ := o2
        rw [wfSpans_cons2, Bool.and_eq_true, Bool.and_eq_true,
          decide_eq_true_eq, decide_eq_true_eq] at hwf
        exact ⟨hwf.1.1, hwf.2⟩
    rcases List.mem_cons.mp ho' with hh | hh
    · rw [hh]
      exact hhead.1
    · exact ih hhead.2 o' hh

theorem wfSpans_chain :
    ∀ {l : List Offs}, wfSpans l = true → List.Chain' (· ≤ ·) (flattenOffs l) := by
  intro l
  induction l with
  | nil => intro _; simp [flattenOffs]
  | cons o rest ih =>
    intro hwf
    obtain ⟨s, e⟩ := o
    cases rest with
    | nil =>
      rw [wfSpans_one, decide_eq_true_eq] at hwf
      show List.Chain' (· ≤ ·) [s, e]
      simp [Nat.le_of_lt hwf]
    | cons o2 r2 =>
      obtain ⟨s', e'⟩ := o2
      rw [wfSpans_cons2, Bool.and_eq_true, Bool.and_eq_true,
        decide_eq_true_eq, decide_eq_true_eq] at hwf
      have hrest := ih hwf.2
      rw [flattenOffs_cons]
      rw [flattenOffs_cons] at hrest ⊢
      apply List.chain'_cons.mpr
      refine ⟨Nat.le_of_lt hwf.1.1, ?_⟩
      apply List.chain'_cons.mpr
      exact ⟨hwf.1.2, hrest⟩

theorem wfSpans_flat_pairwise {l : List Offs} (h : wfSpans l = true) :
    (flattenOffs l).Pairwise (· ≤ ·) :=
  List.chain'_iff_pairwise.mp (wfSpans_chain h)

theorem pairUp_flattenOffs : ∀ l : List Offs, pairUp (flattenOffs l) = l := by
  intro l
  induction l with
  | nil => rfl
  | cons o rest ih =>
    rw [flattenOffs_cons]
    show (o.1, o.2) :: pairUp (flattenOffs rest) = o :: rest
    rw [ih]

theorem flattenOffs_length : ∀ l : List Offs, (flattenOffs l).length = 2 * l.length := by
  intro l
  induction l with
  | nil => rfl
  | cons o rest ih =>
    rw [flattenOffs_cons, List.length_cons, List.length_cons, ih, List.length_cons]
    omega

/-! ## Rebuilding the output dictionary -/

theorem foldAdd_map_const (k : Str) (acc : List (Str × List β)) :
    ∀ ps : List β,
      foldAdd (ps.map (fun v => (k, v))) acc =
        ps.foldl (fun acc v => appendVal acc k v) acc := by
  suffices h : ∀ (ps : List β) (acc₀ : List (Str × List β)),
      foldAdd (ps.map (fun v => (k, v))) acc₀ =
        ps.foldl (fun acc v => appendVal acc k v) acc₀ from fun ps => h ps acc
  intro ps
  induction ps with
  | nil => intro acc₀; rfl
  | cons v vs ih =>
    intro acc₀
    rw [List.map_cons, foldAdd_cons, List.foldl_cons]
    exact ih _

theorem foldAdd_append (xs ys : List (Str × β)) (acc : List (Str × List β)) :
    foldAdd (xs ++ ys) acc = foldAdd ys (foldAdd xs acc) := by
  simp [foldAdd, List.foldl_append]

theorem addPairs_eq (acc : List (Str × List Offs)) (k : Str) (ps : List Offs) :
    addPairs acc k ps = foldAdd (ps.map (fun pr => (k, pr))) acc := by
  rw [foldAdd_map_const]
  rfl

theorem foldl_addPairs_eq :
    ∀ (flat : List (Str × List Nat)) (acc : List (Str × List Offs)),
      flat.foldl (fun acc e => addPairs acc e.1 (pairUp e.2)) acc =
        foldAdd (spreadPairs flat) acc := by
  intro flat
  induction flat with
  | nil => intro acc; rfl
  | cons e rest ih =>
    intro acc
    rw [List.foldl_cons, ih, addPairs_eq]
    rw [show spreadPairs (e :: rest) =
      (pairUp e.2).map (fun pr => (e.1, pr)) ++ spreadPairs rest from rfl]
    rw [foldAdd_append]

theorem selVals_append (k : Str) (xs ys : List (Str × β)) :
    selVals k (xs ++ ys) = selVals k xs ++ selVals k ys := by
  simp [selVals, List.filter_append]

theorem selVals_block (k : Str) (vs : List β) :
    selVals k (vs.map (fun v => (k, v))) = vs := by
  induction vs with
  | nil => rfl
  | cons v vs ih =>
    rw [List.map_cons, selVals_cons, if_pos rfl, ih]

theorem selVals_block_ne {k k' : Str} (h : k' ≠ k) (vs : List β) :
    selVals k ((vs.map (fun v => (k', v)))) = [] := by
  induction vs with
  | nil => rfl
  | cons v vs ih =>
    rw [List.map_cons, selVals_cons, if_neg h, ih]

theorem selVals_spreadPairs_absent :
    ∀ {flat : List (Str × List Nat)} {k : Str}, (∀ e ∈ flat, e.1 ≠ k) →
      selVals k (spreadPairs flat) = [] := by
  intro flat
  induction flat with
  | nil => intro k _; rfl
  | cons e rest ih =>
    intro k h
    rw [show spreadPairs (e :: rest) =
      (pairUp e.2).map (fun pr => (e.1, pr)) ++ spreadPairs rest from rfl]
    rw [selVals_append, selVals_block_ne (h e (List.mem_cons_self _ _)),
      ih (fun e' he' => h e' (List.mem_cons_of_mem _ he')), List.append_nil]

theorem selVals_spreadPairs :
    ∀ {flat : List (Str × List Nat)} {k : Str} {ps : List Nat},
      ((flat.map (·.1)).Nodup) → (k, ps) ∈ flat →
      selVals k (spreadPairs flat) = pairUp ps := by
  intro flat
  induction flat with
  | nil => intro k ps _ hmem; cases hmem
  | cons e rest ih =>
    intro k ps hnd hmem
    rw [List.map_cons, List.nodup_cons] at hnd
    rw [show spreadPairs (e :: rest) =
      (pairUp e.2).map (fun pr => (e.1, pr)) ++ spreadPairs rest from rfl]
    rw [selVals_append]
    rcases List.mem_cons.mp hmem with hh | hh
    · have hke : e.1 = k := by rw [← hh]
      have hrest : selVals k (spreadPairs rest) = [] := by
        apply selVals_spreadPairs_absent
        intro e' he' hek
        apply hnd.1
        rw [hke, ← hek]
        exact List.mem_map.mpr ⟨e', he', rfl⟩
      rw [hrest, List.append_nil, hke, selVals_block]
      rw [← hh]
    · have hke : e.1 ≠ k := by
        intro hk
        apply hnd.1
        rw [hk]
        exact List.mem_map.mpr ⟨(k, ps), hh, rfl⟩
      rw [selVals_block_ne hke, List.nil_append]
      exact ih hnd.2 hh

theorem spreadPairs_keys_sub :
    ∀ {flat : List (Str × List Nat)} {x : Str},
      x ∈ (spreadPairs flat).map (·.1) → x ∈ flat.map (·.1) := by
  intro flat
  induction flat with
  | nil => intro x h; exact absurd h (List.not_mem_nil _)
  | cons e rest ih =>
    intro x h
    rw [show spreadPairs (e :: rest) =
      (pairUp e.2).map (fun pr => (e.1, pr)) ++ spreadPairs rest from rfl,
      List.map_append, List.mem_append] at h
    rcases h with h | h
    · rcases List.mem_map.mp h with ⟨y, hy, hyx⟩
      rcases List.mem_map.mp hy with ⟨pr, _, hpr⟩
      rw [List.map_cons, List.mem_cons]
      left
      rw [← hyx, ← hpr]
    · rw [List.map_cons, List.mem_cons]
      exact Or.inr (ih h)

/-! ## Unfolding the two conversion functions -/

theorem resolveKeys_labels (lm : List (Str × Str)) (anns : List (Str × List Offs))
    (h5 : ∀ a ∈ anns, (assocGet lm a.1).isSome)
    (hnodup : (anns.map (fun a => (assocGet lm a.1).getD a.1)).Nodup) :
    resolveKeys (mkAnnotator lm) anns =
      .ok (anns.map (fun a => ((assocGet lm a.1).getD a.1, a.2))) := by
  unfold resolveKeys
  have hall : (anns.all
      (fun a => (assocGet (mkAnnotator lm).LABEL_EMOJI_MAPPING a.1).isSome)) = true := by
    rw [List.all_eq_true]
    intro a ha
    exact h5 a ha
  rw [if_pos hall]
  have := foldl_assocSet_of_nodup (fun a : Str × List Offs => (assocGet lm a.1).getD a.1)
    (fun a => a.2) anns [] (by simpa using hnodup)
  rw [show (anns.foldl (fun acc a =>
      assocSet acc ((assocGet (mkAnnotator lm).LABEL_EMOJI_MAPPING a.1).getD a.1) a.2)
      []) = (anns.foldl (fun acc a =>
      assocSet acc ((assocGet lm a.1).getD a.1) a.2) []) from rfl]
  rw [this]
  rw [List.nil_append]

theorem to_inline_eq (A : EmojiAnnotator) (t : Str)
    (anns tr : List (Str × List Offs)) (hres : resolveKeys A anns = .ok tr) :
    to_inline_annotations A t anns =
      (match stableSort
          (descLe (dedupF ((stableSort ascLe (flattenAnn tr)).map (·.2))))
          (stableSort ascLe (flattenAnn tr)) with
       | [] => .error .nameError
       | [_] => .error .nameError
       | l => .ok (loopIns t none false l)) := by
  unfold to_inline_annotations
  rw [hres]
  rfl

theorem map_pair_swap_snd (mk : Str) :
    ∀ L : List Nat,
      (((L.map (fun off => (off, mk))).map
        (fun e : Nat × Str => (e.2, e.1))).map (·.2)) = L := by
  intro L
  induction L with
  | nil => rfl
  | cons o os ih =>
    rw [List.map_cons, List.map_cons, List.map_cons, ih]

/-- C1 (amended): the round trip is exact for every well-formed input whose
    per-label offset lists are non-empty and ascending.  Hypotheses: the
    mapping is injective with single-character markers, no marker occurs in
    the text, every annotation key is a label of the mapping, keys are
    distinct, each label's span list is well-formed (`start < end`, sorted,
    non-overlapping) and non-empty with ends inside the text, there is at
    least one annotation, and spans of different labels do not overlap. -/
theorem c1_round_trip_sorted (lm : List (Str × Str)) (t : Str)
    (anns : List (Str × List Offs))
    (_hlabnd : (lm.map (·.1)).Nodup)
    (hmk : (lm.map (·.2)).Nodup)
    (hone : ∀ p ∈ lm, p.2.length = 1)
    (hfree : ∀ p ∈ lm, occursIn p.2 t = false)
    (hkeys : ∀ a ∈ anns, (assocGet lm a.1).isSome)
    (hknd : (anns.map (·.1)).Nodup)
    (hwf : ∀ a ∈ anns, wfSpans a.2 = true)
    (hnemp : ∀ a ∈ anns, a.2 ≠ [])
    (hbound : ∀ a ∈ anns, ∀ o ∈ a.2, o.2 ≤ t.length)
    (hanne : anns ≠ [])
    (_hdisj : ∀ a ∈ anns, ∀ b ∈ anns, a.1 ≠ b.1 →
      ∀ oa ∈ a.2, ∀ ob ∈ b.2, ob.2 ≤ oa.1 ∨ oa.2 ≤ ob.1) :
    ∃ marked res,
      to_inline_annotations (mkAnnotator lm) t anns = .ok marked ∧
      from_inline_annotations (mkAnnotator lm) marked false = .ok (t, res) ∧
      (∀ k, assocGet res k = assocGet anns k) := by
  set mark : (Str × List Offs) → Str := fun a => (assocGet lm a.1).getD a.1 with hmark
  set tr := anns.map (fun a => (mark a, a.2)) with htr
  -- marker facts
  have hmarkmem : ∀ a ∈ anns, (a.1, mark a) ∈ lm := by
    intro a ha
    rcases Option.isSome_iff_exists.mp (hkeys a ha) with ⟨m, hm⟩
    have hma : mark a = m := by
      rw [hmark]
      show (assocGet lm a.1).getD a.1 = m
      rw [hm]
      rfl
    rw [hma]
    exact assocGet_mem hm
  have hmarkinj : ∀ a ∈ anns, ∀ b ∈ anns, mark a = mark b → a.1 = b.1 := by
    intro a ha b hb heq
    have h1 := hmarkmem a ha
    have h2 := hmarkmem b hb
    have heq2 : (a.1, mark a) = (b.1, mark b) :=
      List.inj_on_of_nodup_map hmk h1 h2 (by exact heq)
    exact (Prod.ext_iff.mp heq2).1
  have hannpw : anns.Pairwise (fun a b => a.1 ≠ b.1) := by
    have := hknd
    rw [List.Nodup, List.pairwise_map] at this
    exact this
  have htrmk : (anns.map mark).Nodup := by
    rw [List.Nodup, List.pairwise_map]
    apply List.Pairwise.imp_of_mem ?_ hannpw
    intro a b ha hb hab heq
    exact hab (hmarkinj a ha b hb heq)
  have htrkeysnd : (tr.map (·.1)).Nodup := by
    rw [htr, List.map_map]
    exact htrmk
  -- resolveKeys
  have hres : resolveKeys (mkAnnotator lm) anns = .ok tr := by
    rw [htr]
    exact resolveKeys_labels lm anns hkeys htrmk
  set evs := flattenAnn tr with hevs
  set asc := stableSort ascLe evs with hasc
  set ord := dedupF (asc.map (·.2)) with hord
  set desc := stableSort (descLe ord) asc with hdesc
  have hpermasc : List.Perm asc evs := stableSort_perm _ _
  have hpermdesc : List.Perm desc asc := stableSort_perm _ _
  have hpermde : List.Perm desc evs := hpermdesc.trans hpermasc
  have hdescpw : desc.Pairwise (fun a b => descLe ord a b = true) :=
    stableSort_pairwise (descLe_total ord) (descLe_trans ord) asc
  have hdescni : NonIncr desc :=
    hdescpw.imp (fun h => descLe_offset h)
  set seq := insSeq none false desc with hseq
  have hseqp := insSeq_entry desc
  have hpermse : List.Perm seq evs := by
    rw [hseq]
    exact hseqp.1.trans hpermde
  have hseqni : NonIncr seq := by
    rw [hseq]
    exact hseqp.2 hdescni
  -- event facts
  have hoffbound : ∀ e ∈ evs, e.1 ≤ t.length := by
    intro e he
    rcases mem_flattenAnn.mp he with ⟨a, haT, _, hoff⟩
    rw [htr] at haT
    rcases List.mem_map.mp haT with ⟨a0, ha0, ha0eq⟩
    rw [← ha0eq] at hoff
    rcases mem_flattenOffs.mp hoff with ⟨o, ho, hcase⟩
    have hlt := wfSpans_start_lt (hwf a0 ha0) o ho
    have hle := hbound a0 ha0 o ho
    rcases hcase with h1 | h1 <;> omega
  have htags : ∀ e ∈ evs, ∃ ch, e.2 = [ch] ∧ ([ch] : Str) ∈ lm.map (·.2) := by
    intro e he
    rcases mem_flattenAnn.mp he with ⟨a, haT, htag, _⟩
    rw [htr] at haT
    rcases List.mem_map.mp haT with ⟨a0, ha0, ha0eq⟩
    have hmm := hmarkmem a0 ha0
    have hl1 : (mark a0).length = 1 := hone (a0.1, mark a0) hmm
    rcases List.length_eq_one.mp hl1 with ⟨ch, hch⟩
    refine ⟨ch, ?_, ?_⟩
    · rw [htag, ← ha0eq]
      exact hch
    · rw [← hch]
      exact List.mem_map.mpr ⟨(a0.1, mark a0), hmm, rfl⟩
  have hlen2 : 2 ≤ evs.length := by
    cases hann : anns with
    | nil => exact absurd hann hanne
    | cons a0 rest =>
      have hne : a0.2 ≠ [] := hnemp a0 (by rw [hann]; exact List.mem_cons_self _ _)
      have hpos : 0 < a0.2.length := List.length_pos.mpr hne
      have h2 : evs.length = 2 * a0.2.length +
          (flattenAnn (rest.map (fun a => (mark a, a.2)))).length := by
        rw [hevs, htr, hann, List.map_cons, flattenAnn_cons, List.length_append,
          List.length_map, flattenOffs_length]
      rw [h2]
      omega
  obtain ⟨dx, dy, drest, hdesc3⟩ : ∃ x y rest, desc = x :: y :: rest := by
    have hdl : desc.length = evs.length := hpermde.length_eq
    cases hd : desc with
    | nil =>
      rw [hd] at hdl
      simp at hdl
      omega
    | cons x rest1 =>
      cases hr : rest1 with
      | nil =>
        rw [hd, hr] at hdl
        simp at hdl
        omega
      | cons y rest2 => exact ⟨x, y, rest2, rfl⟩
  have htoinline : to_inline_annotations (mkAnnotator lm) t anns =
      .ok (loopIns t none false desc) := by
    rw [to_inline_eq (mkAnnotator lm) t anns tr hres]
    rw [← hevs, ← hasc, ← hord, ← hdesc, hdesc3]
  set marked := loopIns t none false desc with hmarked
  have hboundseq : ∀ e ∈ seq, e.1 ≤ t.length :=
    fun e he => hoffbound e (hpermse.mem_iff.mp he)
  have hmarkedW : marked = weaveW t seq := by
    rw [hmarked, loopIns_eq_applyIns, ← hseq]
    exact applyIns_eq_weaveW seq t hseqni hboundseq
  -- scanning side
  have hswap := invMap_swap hmk
  have hpatkeys : (invMap lm).map (·.1) = lm.map (·.2) := by
    rw [hswap, List.map_map]
    rfl
  have hp1 : ∀ p ∈ (invMap lm).map (·.1), p.length = 1 := by
    rw [hpatkeys]
    intro p hp
    rcases List.mem_map.mp hp with ⟨q, hq, rfl⟩
    exact hone q hq
  have hplainT : ∀ ch ∈ t, (lm.map (·.2)).find? (fun p => p == [ch]) = none := by
    apply find?_none_of_free
    intro p hp
    rcases List.mem_map.mp hp with ⟨q, hq, rfl⟩
    exact hfree q hq
  have htagsseq : ∀ e ∈ seq, ∃ ch, e.2 = [ch] ∧ ([ch] : Str) ∈ lm.map (·.2) :=
    fun e he => htags e (hpermse.mem_iff.mp he)
  have hscanW : simpleScan (lm.map (·.2)) marked 0 =
      (seq.reverse).map (fun e => (e.2, e.1)) := by
    rw [hmarkedW]
    exact simpleScan_weaveW seq t hseqni hboundseq hplainT htagsseq
  have hstripW : simpleStrip (lm.map (·.2)) marked = t := by
    rw [hmarkedW]
    exact simpleStrip_weaveW seq t hseqni hboundseq hplainT htagsseq
  set Mm := (seq.reverse).map (fun e => (e.2, e.1)) with hMm
  have hfind : finditer (mkAnnotator lm) marked = Mm := by
    show scanAux ((invMap lm).map (·.1)) marked.length marked 0 = Mm
    rw [scanAux_singleton hp1 marked marked.length 0 (Nat.le_refl _), hpatkeys,
      hscanW, hMm]
  have hsub : subMarkers (mkAnnotator lm) marked = t := by
    show stripAux ((invMap lm).map (·.1)) marked.length marked = t
    rw [stripAux_singleton hp1 marked marked.length (Nat.le_refl _), hpatkeys,
      hstripW]
  have hMmtags : ∀ x ∈ Mm, x.1 ∈ lm.map (·.2) := by
    intro x hx
    rw [hMm] at hx
    rcases List.mem_map.mp hx with ⟨e, he, hex⟩
    have heevs : e ∈ evs := hpermse.mem_iff.mp (List.mem_reverse.mp he)
    rcases htags e heevs with ⟨ch, hch, hchm⟩
    rw [← hex]
    show e.2 ∈ lm.map (·.2)
    rw [hch]
    exact hchm
  have hlook : ∀ x ∈ Mm, (assocGet (invMap lm) x.1).isSome := by
    intro x hx
    apply assocGet_isSome_of_mem_keys
    rw [hpatkeys]
    exact hMmtags x hx
  set N := Mm.map (fun x => ((assocGet (invMap lm) x.1).getD [], x.2)) with hN
  set flat := foldAdd N [] with hflat
  have hgroup : groupFlat (invMap lm) Mm [] = .ok flat := by
    rw [groupFlat_eq_foldAdd (invMap lm) Mm [] hlook, ← hN, ← hflat]
  have hlabelOf : ∀ a0 ∈ anns, (assocGet (invMap lm) (mark a0)).getD [] = a0.1 := by
    intro a0 ha0
    rw [hswap]
    have hgets : assocGet (lm.map (fun p => (p.2, p.1))) (mark a0) = some a0.1 := by
      apply assocGet_eq_some_of_mem_nodup (by rw [List.map_map]; exact hmk)
      exact List.mem_map.mpr ⟨(a0.1, mark a0), hmarkmem a0 ha0, rfl⟩
    rw [hgets]
    rfl
  -- the per-label accumulated positions are exactly the label's endpoints
  have hsel : ∀ a0 ∈ anns, selVals a0.1 N = flattenOffs a0.2 := by
    intro a0 ha0
    have hstep1 : selVals a0.1 N =
        (Mm.filter (fun x => decide ((assocGet (invMap lm) x.1).getD [] = a0.1))).map
          (·.2) := by
      rw [hN]
      show ((Mm.map (fun x => ((assocGet (invMap lm) x.1).getD [], x.2))).filter
        (fun y => decide (y.1 = a0.1))).map (·.2) = _
      rw [List.filter_map, List.map_map]
      rfl
    have hstep2 : (Mm.filter
        (fun x => decide ((assocGet (invMap lm) x.1).getD [] = a0.1))) =
        (Mm.filter (fun x => decide (x.1 = mark a0))) := by
      apply List.filter_congr
      intro x hx
      rw [hMm] at hx
      rcases List.mem_map.mp hx with ⟨e, he, hex⟩
      have heevs : e ∈ evs := hpermse.mem_iff.mp (List.mem_reverse.mp he)
      rcases mem_flattenAnn.mp heevs with ⟨a, haT, htag, _⟩
      rw [htr] at haT
      rcases List.mem_map.mp haT with ⟨b0, hb0, hb0eq⟩
      have htagb : e.2 = mark b0 := by
        rw [htag, ← hb0eq]
      have hx1 : x.1 = mark b0 := by
        rw [← hex]
        exact htagb
      rw [hx1, hlabelOf b0 hb0]
      by_cases hb : b0.1 = a0.1
      · have hba : b0 = a0 := List.inj_on_of_nodup_map hknd hb0 ha0 hb
        rw [hba]
        simp
      · have hmne : mark b0 ≠ mark a0 := fun hh => hb (hmarkinj b0 hb0 a0 ha0 hh)
        rw [decide_eq_false hb, decide_eq_false hmne]
    have hblock : (evs.filter (fun e => decide (e.2 = mark a0))) =
        (flattenOffs a0.2).map (fun off => (off, mark a0)) := by
      rw [hevs]
      exact flattenAnn_filter htrkeysnd
        (by rw [htr]; exact List.mem_map.mpr ⟨a0, ha0, rfl⟩)
    -- permutation between the scan values and the label's endpoints
    have hpermfil : List.Perm
        ((Mm.filter (fun x => decide (x.1 = mark a0))).map (·.2))
        (flattenOffs a0.2) := by
      have hp1' : List.Perm (seq.reverse) evs :=
        (List.reverse_perm seq).trans hpermse
      have hp2 : List.Perm Mm (evs.map (fun e => (e.2, e.1))) := by
        rw [hMm]
        exact hp1'.map _
      have hp3 : List.Perm (Mm.filter (fun x => decide (x.1 = mark a0)))
          ((evs.map (fun e => (e.2, e.1))).filter
            (fun x => decide (x.1 = mark a0))) :=
        hp2.filter _
      have hfm : ((evs.map (fun e => (e.2, e.1))).filter
          (fun x => decide (x.1 = mark a0))) =
          (evs.filter (fun e => decide (e.2 = mark a0))).map (fun e => (e.2, e.1)) := by
        rw [List.filter_map]
        rfl
      have hp4 : List.Perm ((Mm.filter (fun x => decide (x.1 = mark a0))).map (·.2))
          (((evs.filter (fun e => decide (e.2 = mark a0))).map
            (fun e => (e.2, e.1))).map (·.2)) := by
        apply List.Perm.map
        rw [← hfm]
        exact hp3
      have hmap2 : (((evs.filter (fun e => decide (e.2 = mark a0))).map
          (fun e => (e.2, e.1))).map (·.2)) = flattenOffs a0.2 := by
        rw [hblock]
        exact map_pair_swap_snd (mark a0) (flattenOffs a0.2)
      rw [hmap2] at hp4
      exact hp4
    -- both sides sorted
    have hsort1 : ((Mm.filter (fun x => decide (x.1 = mark a0))).map
        (·.2)).Pairwise (· ≤ ·) := by
      have hrev : (seq.reverse).Pairwise (fun a b => a.1 ≤ b.1) := by
        rw [List.pairwise_reverse]
        exact hseqni
      have hMmpw : Mm.Pairwise (fun a b => a.2 ≤ b.2) := by
        rw [hMm, List.pairwise_map]
        exact hrev
      have hfilpw : (Mm.filter (fun x => decide (x.1 = mark a0))).Pairwise
          (fun a b => a.2 ≤ b.2) := hMmpw.filter _
      rw [List.pairwise_map]
      exact hfilpw
    have hsort2 : (flattenOffs a0.2).Pairwise (· ≤ ·) :=
      wfSpans_flat_pairwise (hwf a0 ha0)
    have := List.eq_of_perm_of_sorted hpermfil hsort1 hsort2
    rw [hstep1, hstep2, this]
  -- flat keys come from annotation labels
  have hNkeys : ∀ kk ∈ N.map (·.1), ∃ b0 ∈ anns, kk = b0.1 := by
    intro kk hkk
    rcases List.mem_map.mp hkk with ⟨y, hyN, hyk⟩
    rw [hN] at hyN
    rcases List.mem_map.mp hyN with ⟨x, hxMm, hxy⟩
    rw [hMm] at hxMm
    rcases List.mem_map.mp hxMm with ⟨e, he, hex⟩
    have heevs : e ∈ evs := hpermse.mem_iff.mp (List.mem_reverse.mp he)
    rcases mem_flattenAnn.mp heevs with ⟨a, haT, htag, _⟩
    rw [htr] at haT
    rcases List.mem_map.mp haT with ⟨b0, hb0, hb0eq⟩
    refine ⟨b0, hb0, ?_⟩
    have hx1 : x.1 = mark b0 := by
      rw [← hex]
      show e.2 = mark b0
      rw [htag, ← hb0eq]
    rw [← hyk, ← hxy]
    show (assocGet (invMap lm) x.1).getD [] = b0.1
    rw [hx1]
    exact hlabelOf b0 hb0
  have hflatnodup : (flat.map (·.1)).Nodup := by
    rw [hflat]
    exact nodup_keys_foldAdd (by simp)
  have hkeyInN : ∀ {kk : Str}, kk ∈ flat.map (·.1) → kk ∈ N.map (·.1) := by
    intro kk h
    rw [hflat] at h
    rcases mem_keys_foldAdd h with h0 | h0
    · exact absurd h0 (List.not_mem_nil _)
    · exact h0
  have hflat_even : ∀ e ∈ flat, e.2.length % 2 = 0 := by
    intro e he
    have hkN : e.1 ∈ N.map (·.1) :=
      hkeyInN (List.mem_map.mpr ⟨e, he, rfl⟩)
    rcases hNkeys e.1 hkN with ⟨b0, hb0, hkb⟩
    have hget : assocGet flat e.1 = some e.2 :=
      assocGet_eq_some_of_mem_nodup hflatnodup he
    have hget2 : assocGet flat e.1 =
        if (selVals e.1 N).isEmpty then none else some (selVals e.1 N) := by
      rw [hflat]
      exact foldAdd_get_none (assocGet_nil e.1)
    rw [hget] at hget2
    by_cases hemp : (selVals e.1 N).isEmpty
    · rw [if_pos hemp] at hget2
      exact absurd hget2 (by simp)
    · rw [if_neg hemp] at hget2
      have he2 : e.2 = selVals e.1 N := Option.some_inj.mp hget2
      have hselb : selVals b0.1 N = flattenOffs b0.2 := hsel b0 hb0
      rw [he2, hkb, hselb, flattenOffs_length]
      omega
  have hbuild := buildAnns_ok (mkAnnotator lm) flat [] hflat_even
  set res := flat.foldl (fun acc e => addPairs acc e.1 (pairUp e.2)) [] with hres2
  have hresfold : res = foldAdd (spreadPairs flat) [] := by
    rw [hres2]
    exact foldl_addPairs_eq flat []
  have hfromi : from_inline_annotations (mkAnnotator lm) marked false =
      .ok (t, res) := by
    unfold from_inline_annotations
    rw [show (mkAnnotator lm).EMOJI_LABEL_MAPPING = invMap lm from rfl, hfind,
      hgroup]
    show (buildAnns (mkAnnotator lm) false flat []).bind
      (fun anns => Except.ok (subMarkers (mkAnnotator lm) marked, anns)) =
        .ok (t, res)
    rw [hbuild]
    show Except.ok (subMarkers (mkAnnotator lm) marked, res) = .ok (t, res)
    rw [hsub]
  refine ⟨marked, res, htoinline, hfromi, ?_⟩
  intro k
  cases hak : assocGet anns k with
  | some sp =>
    have hmemk : (k, sp) ∈ anns := assocGet_mem hak
    have hselk : selVals k N = flattenOffs sp := hsel (k, sp) hmemk
    have hspne : sp ≠ [] := hnemp (k, sp) hmemk
    have hfone : (flattenOffs sp).isEmpty = false := by
      cases hsp2 : sp with
      | nil => exact absurd hsp2 hspne
      | cons o os => rw [flattenOffs_cons]; rfl
    have hgetflat : assocGet flat k = some (flattenOffs sp) := by
      have hg : assocGet flat k =
          if (selVals k N).isEmpty then none else some (selVals k N) := by
        rw [hflat]
        exact foldAdd_get_none (assocGet_nil k)
      rw [hselk, hfone] at hg
      simpa using hg
    have hmemflat : (k, flattenOffs sp) ∈ flat := assocGet_mem hgetflat
    have hselspread : selVals k (spreadPairs flat) = sp := by
      rw [selVals_spreadPairs hflatnodup hmemflat, pairUp_flattenOffs]
    have hspn : (sp : List Offs).isEmpty = false := by
      cases hsp2 : sp with
      | nil => exact absurd hsp2 hspne
      | cons o os => rfl
    have hg2 : assocGet res k =
        if (selVals k (spreadPairs flat)).isEmpty then none
        else some (selVals k (spreadPairs flat)) := by
      rw [hresfold]
      exact foldAdd_get_none (assocGet_nil k)
    rw [hselspread, hspn] at hg2
    simpa using hg2
  | none =>
    have hknot : k ∉ anns.map (·.1) := (assocGet_eq_none_iff anns k).mp hak
    rw [assocGet_eq_none_iff]
    intro hkres
    rw [hresfold] at hkres
    rcases mem_keys_foldAdd hkres with h0 | h0
    · exact absurd h0 (List.not_mem_nil _)
    · have hkflat : k ∈ flat.map (·.1) := spreadPairs_keys_sub h0
      have hkN2 : k ∈ N.map (·.1) := hkeyInN hkflat
      rcases hNkeys k hkN2 with ⟨b0, hb0, hkb⟩
      apply hknot
      rw [hkb]
      exact List.mem_map.mpr ⟨b0, hb0, rfl⟩

/-- Witness for C1 (amended): a concrete two-label round trip. -/
theorem c1_round_trip_sorted_witness :
    ∃ marked res,
      to_inline_annotations (mkAnnotator [(['a'], ['X']), (['b'], ['Y'])])
        "abcdef".toList
        [(['a'], [(0, 1), (4, 5)]), (['b'], [(1, 2)])] = .ok marked ∧
      from_inline_annotations (mkAnnotator [(['a'], ['X']), (['b'], ['Y'])])
        marked false = .ok ("abcdef".toList, res) ∧
      (∀ k, assocGet res k =
        assocGet [(['a'], [((0 : Nat), (1 : Nat)), (4, 5)]), (['b'], [(1, 2)])] k) :=
  c1_round_trip_sorted [(['a'], ['X']), (['b'], ['Y'])] "abcdef".toList
    [(['a'], [(0, 1), (4, 5)]), (['b'], [(1, 2)])]
    (by decide) (by decide) (by decide) (by decide) (by decide) (by decide)
    (by decide) (by decide) (by decide) (by decide) (by decide)

/-- C2 (amended): for the two-span abutting configuration — two distinct
    labels, one span each, the first span's end equal to the second span's
    start — `to_inline_annotations` places the closing marker `ma` textually
    before the opening marker `mb` at the shared offset `p`, and both
    iteration orders of the annotation keys produce the same marked
    string. -/
theorem c2_abutting_close_before_open (la lb ma mb t : Str) (s p e : Nat)
    (hlab : la ≠ lb) (hmrk : ma ≠ mb) (hsp : s < p) (hpe : p < e)
    (het : e ≤ t.length) :
    to_inline_annotations (mkAnnotator [(la, ma), (lb, mb)]) t
        [(la, [(s, p)]), (lb, [(p, e)])] =
      .ok (t.take s ++ ma ++ (t.take p).drop s ++ ma ++ mb ++
        (t.take e).drop p ++ mb ++ t.drop e) ∧
    to_inline_annotations (mkAnnotator [(la, ma), (lb, mb)]) t
        [(lb, [(p, e)]), (la, [(s, p)])] =
      .ok (t.take s ++ ma ++ (t.take p).drop s ++ ma ++ mb ++
        (t.take e).drop p ++ mb ++ t.drop e) := by
  have hga : assocGet [(la, ma), (lb, mb)] la = some ma := by
    rw [assocGet_cons, if_pos rfl]
  have hgb : assocGet [(la, ma), (lb, mb)] lb = some mb := by
    rw [assocGet_cons, if_neg hlab, assocGet_cons, if_pos rfl]
  -- key resolution for both orders
  have h5a : ∀ a ∈ ([(la, [(s, p)]), (lb, [(p, e)])] : List (Str × List Offs)),
      (assocGet [(la, ma), (lb, mb)] a.1).isSome := by
    intro a ha
    rw [List.mem_cons, List.mem_cons] at ha
    rcases ha with rfl | rfl | h
    · rw [show ((la, [(s, p)]) : Str × List Offs).1 = la from rfl, hga]; rfl
    · rw [show ((lb, [(p, e)]) : Str × List Offs).1 = lb from rfl, hgb]; rfl
    · exact absurd h (List.not_mem_nil a)
  have h5b : ∀ a ∈ ([(lb, [(p, e)]), (la, [(s, p)])] : List (Str × List Offs)),
      (assocGet [(la, ma), (lb, mb)] a.1).isSome := by
    intro a ha
    rw [List.mem_cons, List.mem_cons] at ha
    rcases ha with rfl | rfl | h
    · rw [show ((lb, [(p, e)]) : Str × List Offs).1 = lb from rfl, hgb]; rfl
    · rw [show ((la, [(s, p)]) : Str × List Offs).1 = la from rfl, hga]; rfl
    · exact absurd h (List.not_mem_nil a)
  have hmapa : ([(la, [(s, p)]), (lb, [(p, e)])] : List (Str × List Offs)).map
      (fun a => ((assocGet [(la, ma), (lb, mb)] a.1).getD a.1, a.2)) =
        [(ma, [(s, p)]), (mb, [(p, e)])] := by
    simp only [List.map_cons, List.map_nil]
    rw [hga, hgb]
    rfl
  have hmapb : ([(lb, [(p, e)]), (la, [(s, p)])] : List (Str × List Offs)).map
      (fun a => ((assocGet [(la, ma), (lb, mb)] a.1).getD a.1, a.2)) =
        [(mb, [(p, e)]), (ma, [(s, p)])] := by
    simp only [List.map_cons, List.map_nil]
    rw [hga, hgb]
    rfl
  have hnda : (([(la, [(s, p)]), (lb, [(p, e)])] : List (Str × List Offs)).map
      (fun a => (assocGet [(la, ma), (lb, mb)] a.1).getD a.1)).Nodup := by
    have hm : ([(la, [(s, p)]), (lb, [(p, e)])] : List (Str × List Offs)).map
        (fun a => (assocGet [(la, ma), (lb, mb)] a.1).getD a.1) = [ma, mb] := by
      simp only [List.map_cons, List.map_nil]
      rw [hga, hgb]
      rfl
    rw [hm]
    exact List.nodup_cons.mpr ⟨by simp [hmrk], List.nodup_singleton _⟩
  have hndb : (([(lb, [(p, e)]), (la, [(s, p)])] : List (Str × List Offs)).map
      (fun a => (assocGet [(la, ma), (lb, mb)] a.1).getD a.1)).Nodup := by
    have hm : ([(lb, [(p, e)]), (la, [(s, p)])] : List (Str × List Offs)).map
        (fun a => (assocGet [(la, ma), (lb, mb)] a.1).getD a.1) = [mb, ma] := by
      simp only [List.map_cons, List.map_nil]
      rw [hga, hgb]
      rfl
    rw [hm]
    exact List.nodup_cons.mpr ⟨by simp [Ne.symm hmrk], List.nodup_singleton _⟩
  have hresa : resolveKeys (mkAnnotator [(la, ma), (lb, mb)])
      [(la, [(s, p)]), (lb, [(p, e)])] = .ok [(ma, [(s, p)]), (mb, [(p, e)])] := by
    rw [resolveKeys_labels [(la, ma), (lb, mb)] _ h5a hnda, hmapa]
  have hresb : resolveKeys (mkAnnotator [(la, ma), (lb, mb)])
      [(lb, [(p, e)]), (la, [(s, p)])] = .ok [(mb, [(p, e)]), (ma, [(s, p)])] := by
    rw [resolveKeys_labels [(la, ma), (lb, mb)] _ h5b hndb, hmapb]
  -- tag order facts
  have htia : tagIdx [ma, mb] ma = 0 := by
    unfold tagIdx
    rw [List.findIdx_cons, beq_self_eq_true]
    rfl
  have htib : tagIdx [ma, mb] mb = 1 := by
    unfold tagIdx
    rw [List.findIdx_cons, beq_eq_false_iff_ne.mpr hmrk, List.findIdx_cons,
      beq_self_eq_true]
    rfl
  -- the sorting pipeline, evaluated on both inputs
  have hasc1 : stableSort ascLe [(s, ma), (p, ma), (p, mb), (e, mb)] =
      [(s, ma), (p, ma), (p, mb), (e, mb)] := by
    simp [stableSort, insStep, ascLe, hsp.le, hpe.le]
  have hasc2 : stableSort ascLe [(p, mb), (e, mb), (s, ma), (p, ma)] =
      [(s, ma), (p, mb), (p, ma), (e, mb)] := by
    simp [stableSort, insStep, ascLe, hsp.le, hpe.le, not_le.mpr hsp,
      not_le.mpr hpe, not_le.mpr (hsp.trans hpe)]
  have hord1 : dedupF [ma, ma, mb, mb] = [ma, mb] := by
    simp [dedupF, hmrk, Ne.symm hmrk]
  have hord2 : dedupF [ma, mb, ma, mb] = [ma, mb] := by
    simp [dedupF, hmrk, Ne.symm hmrk]
  have hdesc1 : stableSort (descLe [ma, mb]) [(s, ma), (p, ma), (p, mb), (e, mb)] =
      [(e, mb), (p, mb), (p, ma), (s, ma)] := by
    simp [stableSort, insStep, descLe, htia, htib, lt_irrefl,
      lt_asymm hsp, lt_asymm hpe, lt_asymm (hsp.trans hpe),
      ne_of_gt hsp, ne_of_gt hpe, ne_of_gt (hsp.trans hpe)]
  have hdesc2 : stableSort (descLe [ma, mb]) [(s, ma), (p, mb), (p, ma), (e, mb)] =
      [(e, mb), (p, mb), (p, ma), (s, ma)] := by
    simp [stableSort, insStep, descLe, htia, htib, lt_irrefl,
      lt_asymm hsp, lt_asymm hpe, lt_asymm (hsp.trans hpe),
      ne_of_gt hsp, ne_of_gt hpe, ne_of_gt (hsp.trans hpe)]
  -- the common insertion run
  have hseqeq : insSeq none false [(e, mb), (p, mb), (p, ma), (s, ma)] =
      [(e, mb), (p, mb), (p, ma), (s, ma)] := by
    simp [insSeq, Ne.symm hmrk, ne_of_gt hsp]
  have hNI : NonIncr [(e, mb), (p, mb), (p, ma), (s, ma)] := by
    simp [NonIncr, List.pairwise_cons]
    omega
  have hbnds : ∀ x ∈ ([(e, mb), (p, mb), (p, ma), (s, ma)] : List (Nat × Str)),
      x.1 ≤ t.length := by
    intro x hx
    rw [List.mem_cons, List.mem_cons, List.mem_cons] at hx
    rcases hx with rfl | rfl | rfl | hx
    · exact het
    · show p ≤ t.length
      omega
    · show p ≤ t.length
      omega
    · rw [List.mem_singleton] at hx
      rw [hx]
      show s ≤ t.length
      omega
  have hdroppp : (t.take p).drop p = [] := by
    apply List.drop_eq_nil_of_le
    rw [List.length_take]
    omega
  have hloop : loopIns t none false [(e, mb), (p, mb), (p, ma), (s, ma)] =
      t.take s ++ ma ++ (t.take p).drop s ++ ma ++ mb ++
        (t.take e).drop p ++ mb ++ t.drop e := by
    rw [loopIns_eq_applyIns, hseqeq,
      applyIns_eq_weaveW _ t hNI hbnds,
      weaveW_cons, weaveW_cons, weaveW_cons, weaveW_cons, weaveW_nil]
    simp [List.take_take, min_self, min_eq_left hpe.le, min_eq_left hsp.le,
      min_eq_left (le_of_lt (hsp.trans hpe)), hdroppp, List.append_assoc]
  constructor
  · rw [to_inline_eq _ t _ _ hresa,
      show flattenAnn [(ma, [(s, p)]), (mb, [(p, e)])] =
        [(s, ma), (p, ma), (p, mb), (e, mb)] from rfl,
      hasc1,
      show List.map (fun x : Nat × Str => x.2)
        [(s, ma), (p, ma), (p, mb), (e, mb)] = [ma, ma, mb, mb] from rfl,
      hord1, hdesc1]
    rw [show (match ([(e, mb), (p, mb), (p, ma), (s, ma)] : List (Nat × Str)) with
       | [] => (Except.error Err.nameError : Except Err Str)
       | [_] => Except.error Err.nameError
       | l => Except.ok (loopIns t none false l)) =
        Except.ok (loopIns t none false [(e, mb), (p, mb), (p, ma), (s, ma)])
      from rfl]
    rw [hloop]
  · rw [to_inline_eq _ t _ _ hresb,
      show flattenAnn [(mb, [(p, e)]), (ma, [(s, p)])] =
        [(p, mb), (e, mb), (s, ma), (p, ma)] from rfl,
      hasc2,
      show List.map (fun x : Nat × Str => x.2)
        [(s, ma), (p, mb), (p, ma), (e, mb)] = [ma, mb, ma, mb] from rfl,
      hord2, hdesc2]
    rw [show (match ([(e, mb), (p, mb), (p, ma), (s, ma)] : List (Nat × Str)) with
       | [] => (Except.error Err.nameError : Except Err Str)
       | [_] => Except.error Err.nameError
       | l => Except.ok (loopIns t none false l)) =
        Except.ok (loopIns t none false [(e, mb), (p, mb), (p, ma), (s, ma)])
      from rfl]
    rw [hloop]

/-- Witness for C2 (amended): a concrete abutting pair on "abc". -/
theorem c2_abutting_close_before_open_witness :
    to_inline_annotations (mkAnnotator [(['a'], ['X']), (['b'], ['Y'])])
        "abc".toList [(['a'], [(0, 1)]), (['b'], [(1, 2)])] =
      .ok ("abc".toList.take 0 ++ ['X'] ++ ("abc".toList.take 1).drop 0 ++ ['X'] ++
        ['Y'] ++ ("abc".toList.take 2).drop 1 ++ ['Y'] ++ "abc".toList.drop 2) ∧
    to_inline_annotations (mkAnnotator [(['a'], ['X']), (['b'], ['Y'])])
        "abc".toList [(['b'], [(1, 2)]), (['a'], [(0, 1)])] =
      .ok ("abc".toList.take 0 ++ ['X'] ++ ("abc".toList.take 1).drop 0 ++ ['X'] ++
        ['Y'] ++ ("abc".toList.take 2).drop 1 ++ ['Y'] ++ "abc".toList.drop 2) :=
  c2_abutting_close_before_open ['a'] ['b'] ['X'] ['Y'] "abc".toList 0 1 2
    (by decide) (by decide) (by decide) (by decide) (by decide)

end EmojiTool
